import Mathlib

/-!
Verification of the whatstyle style-search engine specification against a
shallow embedding of `whatstyle.py`.

Conventions of the embedding:
Byte strings and unicode strings are both modelled as `List Char`
(the program only manipulates them as sequences of code units, and the
claims under study never depend on a specific encoding).  Python `int`
is `Int`, machine overflow does not arise (Python integers are unbounded).
Each Python function is translated under its source name where Lean
permits.
-/

namespace Whatstyle

/-! ### Decimal rendering and parsing of integers (Python `str`/`int`) -/

/-- Character for a single decimal digit (0..9). -/
def digitChar : Nat → Char
  | 0 => '0' | 1 => '1' | 2 => '2' | 3 => '3' | 4 => '4'
  | 5 => '5' | 6 => '6' | 7 => '7' | 8 => '8' | _ => '9'

/-- Numeric value of a decimal digit character. -/
def digitVal (c : Char) : Nat := c.toNat - 48

/-- `c` is an ASCII decimal digit. -/
def isDigitChar (c : Char) : Bool := 48 ≤ c.toNat && c.toNat ≤ 57

/-- Fuel-driven worker for the little-endian decimal digits of `n`
(structural recursion keeps it kernel-computable). -/
def natToDigitsRevAux (fuel n : Nat) : List Char :=
  match fuel with
  | 0 => []
  | fuel' + 1 => if n = 0 then [] else digitChar (n % 10) :: natToDigitsRevAux fuel' (n / 10)

/-- Little-endian decimal digits of `n` (empty for 0). -/
def natToDigitsRev (n : Nat) : List Char := natToDigitsRevAux n n

theorem natToDigitsRevAux_zero (f : Nat) : natToDigitsRevAux f 0 = [] := by
  cases f <;> simp [natToDigitsRevAux]

theorem natToDigitsRevAux_congr (f1 : Nat) :
    ∀ f2 n : Nat, n ≤ f1 → n ≤ f2 → natToDigitsRevAux f1 n = natToDigitsRevAux f2 n := by
  induction f1 using Nat.strong_induction_on with
  | _ f1 ih =>
    intro f2 n h1 h2
    by_cases hn : n = 0
    · rw [hn, natToDigitsRevAux_zero, natToDigitsRevAux_zero]
    · match f1, f2 with
      | 0, _ => omega
      | _ + 1, 0 => omega
      | g1 + 1, g2 + 1 =>
        simp only [natToDigitsRevAux]
        rw [if_neg hn, if_neg hn]
        have hlt : n / 10 < n := Nat.div_lt_self (Nat.pos_of_ne_zero hn) (by omega)
        rw [ih g1 (by omega) g2 (n / 10) (by omega) (by omega)]

theorem natToDigitsRev_zero : natToDigitsRev 0 = [] := rfl

theorem natToDigitsRev_succ (n : Nat) (h : n ≠ 0) :
    natToDigitsRev n = digitChar (n % 10) :: natToDigitsRev (n / 10) := by
  unfold natToDigitsRev
  obtain ⟨m, rfl⟩ := Nat.exists_eq_succ_of_ne_zero h
  simp only [natToDigitsRevAux, h, if_neg, not_false_iff]
  congr 1
  have hlt : (m + 1) / 10 < m + 1 := Nat.div_lt_self (by omega) (by omega)
  exact natToDigitsRevAux_congr m _ _ (by omega) (le_refl _)

/-- Python `str` of a natural number. -/
def natRepr (n : Nat) : List Char :=
  if n = 0 then ['0'] else (natToDigitsRev n).reverse

/-- Python `str` of an integer. -/
def intRepr (i : Int) : List Char :=
  if i < 0 then '-' :: natRepr i.natAbs else natRepr i.toNat

/-- Value of a big-endian string of decimal digits. -/
def natVal (l : List Char) : Nat := l.foldl (fun a c => 10 * a + digitVal c) 0

theorem digitVal_digitChar (d : Nat) (h : d < 10) : digitVal (digitChar d) = d := by
  interval_cases d <;> decide

theorem isDigitChar_digitChar (d : Nat) (h : d < 10) : isDigitChar (digitChar d) = true := by
  interval_cases d <;> decide

theorem natVal_append_digit (l : List Char) (c : Char) :
    natVal (l ++ [c]) = 10 * natVal l + digitVal c := by
  simp [natVal, List.foldl_append]

theorem natVal_digitsRev (n : Nat) : natVal (natToDigitsRev n).reverse = n := by
  induction n using Nat.strong_induction_on with
  | _ n ih =>
    by_cases h : n = 0
    · subst h
      simp [natToDigitsRev_zero, natVal]
    · rw [natToDigitsRev_succ n h, List.reverse_cons, natVal_append_digit,
        ih (n / 10) (Nat.div_lt_self (Nat.pos_of_ne_zero h) (by omega)),
        digitVal_digitChar (n % 10) (Nat.mod_lt n (by omega))]
      omega

theorem natVal_natRepr (n : Nat) : natVal (natRepr n) = n := by
  unfold natRepr
  by_cases h : n = 0
  · simp [h, natVal, digitVal]
  · simp [h, natVal_digitsRev]

theorem natRepr_injective : Function.Injective natRepr := by
  intro a b h
  have := natVal_natRepr a
  rw [h, natVal_natRepr] at this
  omega

theorem mem_natToDigitsRev_isDigit (n : Nat) :
    ∀ c ∈ natToDigitsRev n, isDigitChar c = true := by
  induction n using Nat.strong_induction_on with
  | _ n ih =>
    by_cases h : n = 0
    · rw [h, natToDigitsRev_zero]
      simp
    · rw [natToDigitsRev_succ n h]
      rintro c hc
      rcases List.mem_cons.mp hc with rfl | hc
      · exact isDigitChar_digitChar _ (Nat.mod_lt n (by omega))
      · exact ih (n / 10) (Nat.div_lt_self (Nat.pos_of_ne_zero h) (by omega)) c hc

theorem mem_natRepr_isDigit (n : Nat) : ∀ c ∈ natRepr n, isDigitChar c = true := by
  unfold natRepr
  by_cases h : n = 0
  · simp [h]; decide
  · simp only [h, if_neg, not_false_iff, List.mem_reverse]
    exact mem_natToDigitsRev_isDigit n

theorem natRepr_ne_nil (n : Nat) : natRepr n ≠ [] := by
  unfold natRepr
  by_cases h : n = 0
  · simp [h]
  · rw [if_neg h, natToDigitsRev_succ n h]
    simp

/-! ### C1: the minimize-differences diff metric (`metric_for_mindiff`)

The source scans the diff output with the multiline regex
`^@@ -(\d+)(?:,(\d+))? \+(\d+)(?:,(\d+))? @@` (`re_hunk`).  With
`re.MULTILINE`, `^` anchors each match at the start of the byte string or
right after a `\n`, and the pattern itself cannot span lines, so
`finditer` is equivalent to splitting the output on `'\n'` and matching
the pattern as a prefix of each line.  Greedy matching of `\d+` and of the
optional `(?:,(\d+))?` groups is deterministic here: whenever the regex
engine would backtrack out of a digit run or out of an optional group, the
following mandatory literal (`' '` or `' @@'`) cannot match the character
that made it backtrack (a digit or a comma), so the committed parse below
accepts exactly the same lines. -/

/-- One parsed hunk header `@@ -a(,b)? +c(,d)? @@`. -/
structure HunkHeader where
  froma : Nat
  dels : Option Nat
  toc : Nat
  adds : Option Nat
deriving Repr, DecidableEq

/-- Split a byte string on `'\n'` (the segments seen by a `re.MULTILINE` `^`). -/
def splitOnNl : List Char → List (List Char)
  | [] => [[]]
  | c :: rest =>
    if c = '\n' then [] :: splitOnNl rest
    else
      match splitOnNl rest with
      | [] => [[c]]
      | s :: ss => (c :: s) :: ss

/-- Longest prefix of decimal digits together with the remainder. -/
def takeDigits : List Char → (List Char × List Char)
  | [] => ([], [])
  | c :: rest =>
    if isDigitChar c then
      let (ds, r) := takeDigits rest
      (c :: ds, r)
    else ([], c :: rest)

/-- Prefix-match `re_hunk` against one line. -/
def parseHunkLine (l : List Char) : Option HunkHeader :=
  match l with
  | '@' :: '@' :: ' ' :: '-' :: r0 =>
    let (ds1, r1) := takeDigits r0
    if ds1 = [] then none else
    let ob :=
      match r1 with
      | ',' :: r1' =>
        let (ds2, r2') := takeDigits r1'
        if ds2 = [] then none else some (some (natVal ds2), r2')
      | _ => some ((none : Option Nat), r1)
    match ob with
    | none => none
    | some (b, r2) =>
      match r2 with
      | ' ' :: '+' :: r3 =>
        let (ds3, r4) := takeDigits r3
        if ds3 = [] then none else
        let od :=
          match r4 with
          | ',' :: r4' =>
            let (ds4, r5') := takeDigits r4'
            if ds4 = [] then none else some (some (natVal ds4), r5')
          | _ => some ((none : Option Nat), r4)
        match od with
        | none => none
        | some (d, r5) =>
          match r5 with
          | ' ' :: '@' :: '@' :: _ => some ⟨natVal ds1, b, natVal ds3, d⟩
          | _ => none
      | _ => none
  | _ => none

/-- All hunk headers found by `re_hunk.finditer` over the diff output. -/
def hunkHeaders (diffoutput : List Char) : List HunkHeader :=
  (splitOnNl diffoutput).filterMap parseHunkLine

/-- The accumulator loop of `metric_for_mindiff`: running totals of
additions, deletions, summed hunk differences and the (unused) maximal
hunk difference. -/
def mindiffLoop : List HunkHeader → Int → Int → Int → Int → Int × Int × Int × Int
  | [], additions, deletions, hunkdiffs, maxhunkdiff =>
    (additions, deletions, hunkdiffs, maxhunkdiff)
  | h :: rest, additions, deletions, hunkdiffs, maxhunkdiff =>
    let numdels : Int := match h.dels with | none => 1 | some x => (x : Int)
    let numadds : Int := match h.adds with | none => 1 | some x => (x : Int)
    let hunkdiff := |numadds - numdels|
    mindiffLoop rest (additions + numadds) (deletions + numdels)
      (hunkdiffs + hunkdiff) (max hunkdiff maxhunkdiff)

/-- `metric_for_mindiff` from the source: 0 for empty diff output, else
`2 + additions + deletions + hunkdiffs`, plus `|numlines - numlines_to|`
when a reference line count is given and already reached. -/
def metric_for_mindiff (diffoutput : List Char) (numlines : Option Int) : Int :=
  if diffoutput = [] then 0 else
  let acc := mindiffLoop (hunkHeaders diffoutput) 0 0 0 0
  let additions := acc.1
  let deletions := acc.2.1
  let hunkdiffs := acc.2.2.1
  let per_file_overhead : Int := 2
  let num_changes := per_file_overhead + additions + deletions + hunkdiffs
  match numlines with
  | none => num_changes
  | some n =>
    if num_changes ≥ n then
      let numlines_to := n + additions - deletions
      num_changes + |n - numlines_to|
    else num_changes

/-- Spec-side additions: the sum over hunk headers of `d` (default 1). -/
def specAdditions (diffoutput : List Char) : Int :=
  ((hunkHeaders diffoutput).map (fun h => match h.adds with | none => (1 : Int) | some x => (x : Int))).sum

/-- Spec-side deletions: the sum over hunk headers of `b` (default 1). -/
def specDeletions (diffoutput : List Char) : Int :=
  ((hunkHeaders diffoutput).map (fun h => match h.dels with | none => (1 : Int) | some x => (x : Int))).sum

/-- Spec-side hunkdiffs: the sum over hunks of `|d - b|` (defaults 1). -/
def specHunkdiffs (diffoutput : List Char) : Int :=
  ((hunkHeaders diffoutput).map (fun h =>
    |(match h.adds with | none => (1 : Int) | some x => (x : Int)) -
      (match h.dels with | none => (1 : Int) | some x => (x : Int))|)).sum

theorem mindiffLoop_spec (hs : List HunkHeader) (a d hd m : Int) :
    (mindiffLoop hs a d hd m).1 =
      a + (hs.map (fun h => match h.adds with | none => (1 : Int) | some x => (x : Int))).sum ∧
    (mindiffLoop hs a d hd m).2.1 =
      d + (hs.map (fun h => match h.dels with | none => (1 : Int) | some x => (x : Int))).sum ∧
    (mindiffLoop hs a d hd m).2.2.1 =
      hd + (hs.map (fun h =>
        |(match h.adds with | none => (1 : Int) | some x => (x : Int)) -
          (match h.dels with | none => (1 : Int) | some x => (x : Int))|)).sum := by
  induction hs generalizing a d hd m with
  | nil => simp [mindiffLoop]
  | cons h rest ih =>
    simp only [mindiffLoop, List.map_cons, List.sum_cons]
    obtain ⟨ih1, ih2, ih3⟩ := ih (a + _) (d + _) (hd + _) (max _ m)
    refine ⟨?_, ?_, ?_⟩
    · rw [ih1]; ring
    · rw [ih2]; ring
    · rw [ih3]; ring

/-- C1.  For every unified diff output and optional reference line count,
`metric_for_mindiff` equals `2 + additions + deletions + hunkdiffs` where
the components are the sums over the parsed `@@ -a(,b)? +c(,d)? @@` hunk
headers (defaults 1 when omitted); empty diff output yields 0; and when
the reference line count `n` is given and the base value is at least `n`,
`|n - (n + additions - deletions)|` is added on top. -/
theorem metric_for_mindiff_spec (diffoutput : List Char) (numlines : Option Int) :
    metric_for_mindiff diffoutput numlines =
      if diffoutput = [] then 0 else
      let A := specAdditions diffoutput
      let D := specDeletions diffoutput
      let H := specHunkdiffs diffoutput
      let base := 2 + A + D + H
      match numlines with
      | none => base
      | some n => if base ≥ n then base + |n - (n + A - D)| else base := by
  unfold metric_for_mindiff specAdditions specDeletions specHunkdiffs
  by_cases h : diffoutput = []
  · simp [h]
  · simp only [h, if_neg, not_false_iff]
    obtain ⟨h1, h2, h3⟩ := mindiffLoop_spec (hunkHeaders diffoutput) 0 0 0 0
    simp only [zero_add] at h1 h2 h3
    simp only [h1, h2, h3]

/-! ### C6: serialization of subprocess results (`pack_exeresult` / `unpack_exeresult`)

`bytes.find`, Python slices and `bytes.split()` are modelled directly.
Python's `int()` on a whitespace-free token is modelled as an optional
sign followed by a nonempty digit run (the Py3.6 underscore digit
grouping, which only makes additional malformed buffers parse, is not
modelled; the theorems below never depend on it). -/

/-- `bytes.find(c)`: index of the first occurrence, `-1` when absent. -/
def pyFind : List Char → Char → Int
  | [], _ => -1
  | c :: rest, t =>
    if c = t then 0
    else
      let r := pyFind rest t
      if r < 0 then -1 else r + 1

/-- Clamp one Python slice index to `[0, len]`. -/
def pyIdxClamp (len : Nat) (i : Int) : Nat :=
  if i < 0 then ((len : Int) + i).toNat else min i.toNat len

/-- Python `l[a:b]`. -/
def pySlice (l : List Char) (a b : Int) : List Char :=
  (l.take (pyIdxClamp l.length b)).drop (pyIdxClamp l.length a)

/-- ASCII whitespace recognized by `bytes.split()`. -/
def isSpaceChar (c : Char) : Bool :=
  c == ' ' || c == '\t' || c == '\n' || c == '\r' || c == '\x0b' || c == '\x0c'

/-- Worker for `bytes.split()` (split on whitespace runs, drop empties). -/
def splitWsAux : List Char → List Char → List (List Char)
  | [], acc => if acc = [] then [] else [acc.reverse]
  | c :: rest, acc =>
    if isSpaceChar c then
      if acc = [] then splitWsAux rest []
      else acc.reverse :: splitWsAux rest []
    else splitWsAux rest (c :: acc)

/-- `bytes.split()` with no separator argument. -/
def splitWs (l : List Char) : List (List Char) := splitWsAux l []

/-- Python `int()` on a whitespace-free token. -/
def pyParseInt (l : List Char) : Option Int :=
  match l with
  | [] => none
  | c :: r =>
    if c = '+' then (if r ≠ [] ∧ r.all isDigitChar then some (natVal r) else none)
    else if c = '-' then (if r ≠ [] ∧ r.all isDigitChar then some (-(natVal r : Int)) else none)
    else if (c :: r).all isDigitChar then some (natVal (c :: r)) else none

/-- `[int(s) for s in tokens]`, where one `ValueError` aborts the whole
comprehension (the caller then substitutes `[]`). -/
def intsOf : List (List Char) → Option (List Int)
  | [] => some []
  | s :: rest =>
    match pyParseInt s, intsOf rest with
    | some v, some vs => some (v :: vs)
    | _, _ => none

/-- `pack_exeresult`: the ASCII triplet `"{rc} {out_len} {err_len}|"`
followed by the stdout and stderr bytes. -/
def pack_exeresult (returncode : Int) (stdoutdata stderrdata : List Char) : List Char :=
  intRepr returncode ++ ' ' :: intRepr (stdoutdata.length : Int) ++
    ' ' :: intRepr (stderrdata.length : Int) ++ '|' :: (stdoutdata ++ stderrdata)

/-- `unpack_exeresult`: `none` models `unpack_error()` raising `ValueError`. -/
def unpack_exeresult (buf : List Char) : Option (Int × List Char × List Char) :=
  let pos := pyFind buf '|'
  if pos < 0 then none else
  let lengths := pySlice buf 0 pos
  let data := pySlice buf (pos + 1) (buf.length : Int)
  let numvalues := (intsOf (splitWs lengths)).getD []
  match numvalues with
  | [returncode, outlen, errlen] =>
    if outlen + errlen ≠ (data.length : Int) then none
    else some (returncode, pySlice data 0 outlen, pySlice data outlen (outlen + errlen))
  | _ => none

theorem isDigitChar_not_space (c : Char) (h : isDigitChar c = true) :
    isSpaceChar c = false := by
  by_contra hs
  rw [Bool.not_eq_false, isSpaceChar] at hs
  simp only [Bool.or_eq_true, beq_iff_eq] at hs
  rcases hs with ((((rfl | rfl) | rfl) | rfl) | rfl) | rfl <;> exact absurd h (by decide)

theorem isDigitChar_ne_bar (c : Char) (h : isDigitChar c = true) : c ≠ '|' := by
  rintro rfl; exact absurd h (by decide)

theorem mem_intRepr (i : Int) (c : Char) (h : c ∈ intRepr i) :
    c = '-' ∨ isDigitChar c = true := by
  unfold intRepr at h
  by_cases hi : i < 0
  · rw [if_pos hi] at h
    rcases List.mem_cons.mp h with rfl | h
    · exact Or.inl rfl
    · exact Or.inr (mem_natRepr_isDigit _ c h)
  · rw [if_neg hi] at h
    exact Or.inr (mem_natRepr_isDigit _ c h)

theorem intRepr_no_space (i : Int) : ∀ c ∈ intRepr i, isSpaceChar c = false := by
  intro c hc
  rcases mem_intRepr i c hc with rfl | h
  · decide
  · exact isDigitChar_not_space c h

theorem intRepr_ne_nil (i : Int) : intRepr i ≠ [] := by
  unfold intRepr
  by_cases hi : i < 0
  · rw [if_pos hi]; exact List.cons_ne_nil _ _
  · rw [if_neg hi]; exact natRepr_ne_nil _

theorem intRepr_no_bar (i : Int) : ∀ c ∈ intRepr i, c ≠ '|' := by
  intro c hc
  rcases mem_intRepr i c hc with rfl | h
  · decide
  · exact isDigitChar_ne_bar c h

theorem pyParseInt_natRepr (n : Nat) : pyParseInt (natRepr n) = some (n : Int) := by
  have hdig : ∀ c ∈ natRepr n, isDigitChar c = true := mem_natRepr_isDigit _
  obtain ⟨c, rest, hrepr⟩ := List.exists_cons_of_ne_nil (natRepr_ne_nil n)
  have hc : isDigitChar c = true := by
    apply hdig; rw [hrepr]; exact List.mem_cons_self _ _
  have h1 : c ≠ '+' := by rintro rfl; exact absurd hc (by decide)
  have h2 : c ≠ '-' := by rintro rfl; exact absurd hc (by decide)
  have hall : (c :: rest).all isDigitChar = true := by
    rw [← hrepr, List.all_eq_true]; exact hdig
  rw [hrepr]
  simp only [pyParseInt]
  rw [if_neg h1, if_neg h2, if_pos hall, ← hrepr, natVal_natRepr]

theorem pyParseInt_intRepr (i : Int) : pyParseInt (intRepr i) = some i := by
  unfold intRepr
  by_cases hi : i < 0
  · rw [if_pos hi]
    have hne : natRepr i.natAbs ≠ [] := natRepr_ne_nil _
    have hall : (natRepr i.natAbs).all isDigitChar = true := by
      rw [List.all_eq_true]; exact mem_natRepr_isDigit _
    simp only [pyParseInt]
    rw [if_neg (show ¬(('-' : Char) = '+') from by decide)]
    rw [if_pos (show natRepr i.natAbs ≠ [] ∧ (natRepr i.natAbs).all isDigitChar = true from
      ⟨hne, hall⟩)]
    rw [natVal_natRepr, if_pos trivial]
    congr 1
    omega
  · rw [if_neg hi, pyParseInt_natRepr]
    congr 1
    omega

theorem pyFind_append (x y : List Char) (t : Char) (hx : ∀ c ∈ x, c ≠ t) :
    pyFind (x ++ t :: y) t = (x.length : Int) := by
  induction x with
  | nil => simp [pyFind]
  | cons c rest ih =>
    have hc : c ≠ t := hx c (List.mem_cons_self _ _)
    have hih := ih (fun d hd => hx d (List.mem_cons_of_mem _ hd))
    simp only [List.cons_append, pyFind, List.append_eq]
    rw [if_neg hc]
    simp only [List.append_eq] at hih ⊢
    rw [hih, if_neg (by omega)]
    simp only [List.length_cons]
    push_cast
    ring

theorem splitWsAux_word (w rest acc : List Char) (hw : ∀ c ∈ w, isSpaceChar c = false) :
    splitWsAux (w ++ rest) acc = splitWsAux rest (w.reverse ++ acc) := by
  induction w generalizing acc with
  | nil => simp
  | cons c cw ih =>
    have hc : isSpaceChar c = false := hw c (List.mem_cons_self _ _)
    have hih := ih (c :: acc) (fun d hd => hw d (List.mem_cons_of_mem _ hd))
    simp only [List.cons_append, splitWsAux, hc, Bool.false_eq_true, if_false]
    simp only [List.append_eq] at hih ⊢
    rw [hih]
    simp

theorem pyIdxClamp_natCast (len : Nat) (n : Nat) : pyIdxClamp len (n : Int) = min n len := by
  unfold pyIdxClamp
  rw [if_neg (by omega)]
  simp

theorem pySlice_front (x y : List Char) :
    pySlice (x ++ y) 0 (x.length : Int) = x := by
  unfold pySlice
  have h0 : pyIdxClamp (x ++ y).length 0 = 0 := by
    have := pyIdxClamp_natCast (x ++ y).length 0
    simpa using this
  have h1 : pyIdxClamp (x ++ y).length (x.length : Int) = x.length := by
    rw [pyIdxClamp_natCast]
    simp [Nat.min_eq_left]
  rw [h0, h1, List.drop_zero, List.take_left]

theorem pySlice_suffix (x y : List Char) :
    pySlice (x ++ y) (x.length : Int) ((x.length : Int) + (y.length : Int)) = y := by
  unfold pySlice
  have h1 : pyIdxClamp (x ++ y).length (x.length : Int) = x.length := by
    rw [pyIdxClamp_natCast]
    simp [Nat.min_eq_left]
  have h2 : pyIdxClamp (x ++ y).length ((x.length : Int) + (y.length : Int)) =
      (x ++ y).length := by
    have : ((x.length : Int) + (y.length : Int)) = (((x.length + y.length : Nat)) : Int) := by
      push_cast; ring
    rw [this, pyIdxClamp_natCast]
    simp
  rw [h1, h2, List.take_length, List.drop_left]

theorem splitWsAux_final (w acc : List Char) (hw : ∀ x ∈ w, isSpaceChar x = false)
    (hne : w.reverse ++ acc ≠ []) : splitWsAux w acc = [acc.reverse ++ w] := by
  have h := splitWsAux_word w [] acc hw
  rw [List.append_nil] at h
  rw [h]
  simp only [splitWsAux]
  rw [if_neg hne]
  simp

theorem splitWs_three_words (a b c : List Char)
    (ha : a ≠ []) (hb : b ≠ []) (hc : c ≠ [])
    (ha' : ∀ x ∈ a, isSpaceChar x = false) (hb' : ∀ x ∈ b, isSpaceChar x = false)
    (hc' : ∀ x ∈ c, isSpaceChar x = false) :
    splitWs (a ++ ' ' :: b ++ ' ' :: c) = [a, b, c] := by
  unfold splitWs
  have hres : a ++ ' ' :: b ++ ' ' :: c = a ++ (' ' :: (b ++ ' ' :: c)) := by simp
  rw [hres]
  rw [splitWsAux_word a (' ' :: (b ++ ' ' :: c)) [] ha']
  simp only [List.append_nil]
  have hsp : isSpaceChar ' ' = true := by decide
  simp only [splitWsAux, hsp, if_true]
  rw [if_neg (by simpa using ha), List.reverse_reverse]
  rw [splitWsAux_word b (' ' :: c) [] hb']
  simp only [List.append_nil]
  simp only [splitWsAux, hsp, if_true]
  rw [if_neg (by simpa using hb), List.reverse_reverse]
  rw [splitWsAux_final c [] hc' (by simpa using hc)]
  simp

theorem pySlice_after_sep (x y : List Char) (t : Char) :
    pySlice (x ++ t :: y) ((x.length : Int) + 1) (((x ++ t :: y).length : Nat) : Int) = y := by
  have h1 : x ++ t :: y = (x ++ [t]) ++ y := by simp
  rw [h1]
  have h2 : ((x.length : Int) + 1) = (((x ++ [t]).length : Nat) : Int) := by simp
  have h3 : ((((x ++ [t]) ++ y).length : Nat) : Int) =
      (((x ++ [t]).length : Nat) : Int) + ((y.length : Nat) : Int) := by
    simp
    omega
  rw [h2, h3]
  exact pySlice_suffix (x ++ [t]) y

/-- The evaluation of `unpack_exeresult` on any buffer made of a header
with three rendered integers followed by `'|'` and a data tail. -/
theorem unpack_exeresult_header (rc o e : Int) (data : List Char) :
    unpack_exeresult (intRepr rc ++ ' ' :: intRepr o ++ ' ' :: intRepr e ++ '|' :: data) =
      if o + e = (data.length : Int) then
        some (rc, pySlice data 0 o, pySlice data o (o + e))
      else none := by
  have hnobar : ∀ x ∈ intRepr rc ++ ' ' :: intRepr o ++ ' ' :: intRepr e, x ≠ '|' := by
    intro x hx
    rcases List.mem_append.mp hx with hx1 | hx2
    · rcases List.mem_append.mp hx1 with h | hx3
      · exact intRepr_no_bar rc x h
      · rcases List.mem_cons.mp hx3 with rfl | h
        · decide
        · exact intRepr_no_bar o x h
    · rcases List.mem_cons.mp hx2 with rfl | h
      · decide
      · exact intRepr_no_bar e x h
  have hsplit : splitWs (intRepr rc ++ ' ' :: intRepr o ++ ' ' :: intRepr e) =
      [intRepr rc, intRepr o, intRepr e] :=
    splitWs_three_words _ _ _ (intRepr_ne_nil rc) (intRepr_ne_nil o) (intRepr_ne_nil e)
      (intRepr_no_space rc) (intRepr_no_space o) (intRepr_no_space e)
  have hfind := pyFind_append (intRepr rc ++ ' ' :: intRepr o ++ ' ' :: intRepr e) data '|' hnobar
  simp only [unpack_exeresult]
  rw [hfind]
  have hlen : ¬ ((((intRepr rc ++ ' ' :: intRepr o ++ ' ' :: intRepr e).length : Nat) : Int)
      < 0) := by omega
  rw [if_neg hlen]
  rw [pySlice_front (intRepr rc ++ ' ' :: intRepr o ++ ' ' :: intRepr e) ('|' :: data)]
  rw [pySlice_after_sep (intRepr rc ++ ' ' :: intRepr o ++ ' ' :: intRepr e) data '|']
  rw [hsplit]
  simp only [intsOf, pyParseInt_intRepr, Option.getD_some]
  by_cases hcond : o + e = (data.length : Int)
  · rw [if_pos hcond]
    exact if_neg (by omega)
  · rw [if_neg hcond]
    exact if_pos (by omega)

/-- C6.  Round trip: unpacking the packed serialization of
`(rc, out, err)` returns exactly `(rc, out, err)`, and unpacking a buffer
whose declared stdout/stderr lengths do not sum to the length of the data
after the `'|'` separator fails with an error. -/
theorem pack_unpack_exeresult (rc : Int) (out err : List Char) :
    unpack_exeresult (pack_exeresult rc out err) = some (rc, out, err) ∧
    (∀ o e : Int, ∀ data : List Char, o + e ≠ (data.length : Int) →
      unpack_exeresult (intRepr rc ++ ' ' :: intRepr o ++ ' ' :: intRepr e ++ '|' :: data) =
        none) := by
  constructor
  · unfold pack_exeresult
    rw [unpack_exeresult_header rc (out.length : Int) (err.length : Int) (out ++ err),
      if_pos (by simp), pySlice_front out err, pySlice_suffix out err]
  · intro o e data hne
    rw [unpack_exeresult_header rc o e data, if_neg hne]

/-- C6 witness: the round trip and the length-mismatch rejection at
concrete inputs. -/
theorem pack_unpack_exeresult_witness :
    unpack_exeresult (pack_exeresult 7 ['a', '|'] ['b']) = some (7, ['a', '|'], ['b']) ∧
    unpack_exeresult (intRepr 7 ++ ' ' :: intRepr 1 ++ ' ' :: intRepr 1 ++ '|' :: ['z']) =
      none := by
  obtain ⟨h1, h2⟩ := pack_unpack_exeresult 7 ['a', '|'] ['b']
  exact ⟨h1, h2 1 1 ['z'] (by decide)⟩

/-! ### The style data model (`Style`, option values)

A Python option value is a bool, an int, a unicode string, a byte string
or a nested `Style`.  `Style` is an ordered dict; it is modelled as a
mutual inductive so that all recursions over styles stay structural (and
hence kernel-computable).  Dict keys are unique by construction in
Python; theorems that depend on that carry an explicit nodup hypothesis. -/

mutual
inductive PyVal : Type where
  | vBool : Bool → PyVal
  | vInt : Int → PyVal
  | vStr : List Char → PyVal
  | vBytes : List Char → PyVal
  | vStyle : StyleItems → PyVal

inductive StyleItems : Type where
  | nil : StyleItems
  | cons : List Char → PyVal → StyleItems → StyleItems
end

deriving instance DecidableEq for PyVal
deriving instance DecidableEq for StyleItems

/-- The key/value pairs of a style, as a plain list. -/
def StyleItems.toPairs : StyleItems → List (List Char × PyVal)
  | .nil => []
  | .cons k v rest => (k, v) :: rest.toPairs

/-- The keys of a style, in order. -/
def StyleItems.keys : StyleItems → List (List Char)
  | .nil => []
  | .cons k _ rest => k :: rest.keys

/-! ### C10: value normalization (`typeconv`)

`re_number = re.compile(r'-?[0-9]+$')` used with `re.match` anchors at
the start, and `$` matches either the very end of the string or just
before a `'\n'` that ends the string.  Hence the regex accepts exactly an
optional minus sign, one or more ASCII digits, and at most one trailing
newline.  The source branches on the interpreter version: under Python 2
`string_types` includes byte strings (`str`) and `binary_type = str`, so
byte strings take part in all conversions and are decoded to unicode;
under Python 3 byte strings fail the initial `isinstance` check and are
returned unchanged (lines 1229-1231 are dead code there).  The embedding
carries that version split as the boolean `py2`; `unistr` (UTF-8
decoding) is the identity on our char-list representation of bytes. -/

/-- The shape `-?[0-9]+`: an optional minus sign followed by one or more
decimal digits, nothing else. -/
def isIntLit (s : List Char) : Bool :=
  match s with
  | [] => false
  | c :: ds => if c = '-' then !ds.isEmpty && ds.all isDigitChar else (c :: ds).all isDigitChar

/-- Integer value of a string of shape `isIntLit`. -/
def intLitVal (s : List Char) : Int :=
  match s with
  | [] => 0
  | c :: ds => if c = '-' then -(natVal ds : Int) else (natVal (c :: ds) : Int)

/-- `re_number.match(text)` as a predicate on the whole string. -/
def reNumberMatch (s : List Char) : Bool :=
  isIntLit (if s.getLast? = some '\n' then s.dropLast else s)

/-- Python `int(text)` for a string accepted by `re_number` (a trailing
newline is whitespace and is ignored by `int`). -/
def pyIntOfMatched (s : List Char) : Int :=
  intLitVal (if s.getLast? = some '\n' then s.dropLast else s)

/-- `typeconv` from the source, parameterized by the interpreter branch. -/
def typeconv (py2 : Bool) (obj : PyVal) : PyVal :=
  match obj with
  | .vBool b => .vBool b
  | .vInt i => .vInt i
  | .vStyle s => .vStyle s
  | .vStr s =>
    if s = "true".data then .vBool true
    else if s = "false".data then .vBool false
    else if reNumberMatch s then .vInt (pyIntOfMatched s)
    else .vStr s
  | .vBytes b =>
    if py2 then
      if b = "true".data then .vBool true
      else if b = "false".data then .vBool false
      else if reNumberMatch b then .vInt (pyIntOfMatched b)
      else .vStr b
    else .vBytes b

/-- The amended value-normalization contract, written independently from
the claim's words: `'true'`/`'false'` to booleans; an optional minus sign
followed by one or more decimal digits, *optionally followed by a single
trailing newline*, to the integer value; under the Python 2 branch any
other byte string decoded to unicode (under Python 3 byte strings are
returned unchanged); every other input unchanged. -/
def typeconvSpec (py2 : Bool) (obj : PyVal) : PyVal :=
  match obj with
  | .vStr s =>
    if s = "true".data then .vBool true
    else if s = "false".data then .vBool false
    else if isIntLit s then .vInt (intLitVal s)
    else if s.getLast? = some '\n' ∧ isIntLit s.dropLast then .vInt (intLitVal s.dropLast)
    else .vStr s
  | .vBytes b =>
    if py2 then
      if b = "true".data then .vBool true
      else if b = "false".data then .vBool false
      else if isIntLit b then .vInt (intLitVal b)
      else if b.getLast? = some '\n' ∧ isIntLit b.dropLast then .vInt (intLitVal b.dropLast)
      else .vStr b
    else .vBytes b
  | v => v

theorem all_digits_false_of_nl (l : List Char) (h : '\n' ∈ l) :
    l.all isDigitChar = false := by
  rw [List.all_eq_false]
  exact ⟨'\n', h, by decide⟩

theorem isIntLit_false_of_last_nl (s : List Char) (h : s.getLast? = some '\n') :
    isIntLit s = false := by
  have hnl : '\n' ∈ s := List.mem_of_mem_getLast? h
  cases s with
  | nil => exact absurd hnl (by simp)
  | cons c ds =>
    simp only [isIntLit]
    by_cases hc : c = '-'
    · subst hc
      rw [if_pos rfl]
      have hds : '\n' ∈ ds := by
        rcases List.mem_cons.mp hnl with h1 | h1
        · exact absurd h1 (by decide)
        · exact h1
      rw [all_digits_false_of_nl ds hds]
      simp
    · rw [if_neg hc, all_digits_false_of_nl _ hnl]

/-- C10 (amended).  `typeconv` maps `'true'`/`'false'` to booleans, any
string made of an optional minus sign and one or more decimal digits,
optionally followed by one trailing newline, to its integer value,
decodes remaining byte strings to unicode under the Python 2 branch
(returning them unchanged under Python 3), and returns every other
input unchanged. -/
theorem typeconv_spec (py2 : Bool) (obj : PyVal) :
    typeconv py2 obj = typeconvSpec py2 obj := by
  have key : ∀ s : List Char,
      (if s = "true".data then (PyVal.vBool true)
       else if s = "false".data then PyVal.vBool false
       else if reNumberMatch s then PyVal.vInt (pyIntOfMatched s)
       else PyVal.vStr s) =
      (if s = "true".data then PyVal.vBool true
       else if s = "false".data then PyVal.vBool false
       else if isIntLit s then PyVal.vInt (intLitVal s)
       else if s.getLast? = some '\n' ∧ isIntLit s.dropLast then
         PyVal.vInt (intLitVal s.dropLast)
       else PyVal.vStr s) := by
    intro s
    by_cases h1 : s = "true".data
    · rw [if_pos h1, if_pos h1]
    rw [if_neg h1, if_neg h1]
    by_cases h2 : s = "false".data
    · rw [if_pos h2, if_pos h2]
    rw [if_neg h2, if_neg h2]
    unfold reNumberMatch pyIntOfMatched
    by_cases h3 : s.getLast? = some '\n'
    · rw [if_pos h3, isIntLit_false_of_last_nl s h3,
        if_neg (show ¬(false = true) from by decide)]
      by_cases h4 : isIntLit s.dropLast = true
      · rw [if_pos h4, if_pos ⟨h3, h4⟩]
      · rw [if_neg h4, if_neg (fun hh => h4 hh.2)]
    · rw [if_neg h3]
      by_cases h4 : isIntLit s = true
      · rw [if_pos h4, if_pos h4]
      · rw [if_neg h4, if_neg h4, if_neg (fun hh => h3 hh.1)]
  cases obj with
  | vBool b => rfl
  | vInt i => rfl
  | vStyle s => rfl
  | vStr s => exact key s
  | vBytes b =>
    simp only [typeconv, typeconvSpec]
    by_cases hp : py2 = true
    · rw [if_pos hp, if_pos hp]
      exact key b
    · rw [if_neg hp, if_neg hp]

/-- C10 counterexample: `"123\n"` is not `'true'`/`'false'`, is not an
optional minus sign followed by decimal digits only, and is not a byte
string, so the claim as written demands that `typeconv` return it
unchanged; the code converts it to the integer 123, because the `$` in
`re_number` also matches just before a trailing newline. -/
theorem typeconv_newline_counterexample :
    typeconv false (.vStr ['1', '2', '3', '\n']) = .vInt 123 ∧
    isIntLit ['1', '2', '3', '\n'] = false ∧
    PyVal.vInt 123 ≠ PyVal.vStr ['1', '2', '3', '\n'] := by decide

/-! ### C2: normalized style signatures (`normrepr`)

`normrepr` renders a style as `{key: value, ...}` with keys sorted by
Python string comparison (code-point lexicographic), booleans as
`true`/`false`, integers in decimal, and nested styles in braces.  The
comparison and sort are implemented directly (matching `sorted` and
`str.__lt__`) so that everything evaluates in the kernel. -/

/-- Python `str.__lt__`: lexicographic comparison by code points. -/
def strLt : List Char → List Char → Bool
  | [], [] => false
  | [], _ :: _ => true
  | _ :: _, [] => false
  | a :: as, b :: bs => if a < b then true else if b < a then false else strLt as bs

/-- `a <= b` on Python strings. -/
def strLE (a b : List Char) : Bool := !strLt b a

/-- Ordered insertion by key (used to model `sorted(style.keys())`). -/
def insertByKey {V : Type} (p : List Char × V) :
    List (List Char × V) → List (List Char × V)
  | [] => [p]
  | q :: rest => if strLE p.1 q.1 then p :: q :: rest else q :: insertByKey p rest

/-- Sort an association list by key. -/
def sortPairsByKey {V : Type} : List (List Char × V) → List (List Char × V)
  | [] => []
  | p :: rest => insertByKey p (sortPairsByKey rest)

/-- `', '.join`. -/
def joinCommaSep : List (List Char) → List Char
  | [] => []
  | [x] => x
  | x :: y :: rest => x ++ ',' :: ' ' :: joinCommaSep (y :: rest)

/-- `textrepr`: booleans as `true`/`false`, other scalars via `str`
(`normrepr` never applies it to a nested style; byte strings render as
their decoded characters, as under Python 2). -/
def textrepr : PyVal → List Char
  | .vBool b => if b then "true".data else "false".data
  | .vInt i => intRepr i
  | .vStr s => s
  | .vBytes s => s
  | .vStyle _ => []

/-- `key + ': ' + value` for one rendered fragment. -/
def itemRender (kv : List Char × List Char) : List Char :=
  kv.1 ++ ':' :: ' ' :: kv.2

mutual
/-- The rendering of one value inside `normrepr`: nested styles recurse,
everything else goes through `textrepr`. -/
def renderVal : PyVal → List Char
  | .vStyle s =>
    '{' :: joinCommaSep ((sortPairsByKey (renderItems s)).map itemRender) ++ ['}']
  | v => textrepr v

/-- Keys paired with rendered values, in dict order. -/
def renderItems : StyleItems → List (List Char × List Char)
  | .nil => []
  | .cons k v rest => (k, renderVal v) :: renderItems rest
end

/-- `normrepr` from the source: sorted keys, `key: value` fragments
joined by `', '` inside braces, recursing into nested styles. -/
def normrepr (style : StyleItems) : List Char := renderVal (.vStyle style)

/-- Ordered insertion of one style item by key. -/
def insertItem (k : List Char) (v : PyVal) : StyleItems → StyleItems
  | .nil => .cons k v .nil
  | .cons k2 v2 rest =>
    if strLE k k2 then .cons k v (.cons k2 v2 rest)
    else .cons k2 v2 (insertItem k v rest)

/-- Sort the items of one style level by key. -/
def sortStyleItems : StyleItems → StyleItems
  | .nil => .nil
  | .cons k v rest => insertItem k v (sortStyleItems rest)

mutual
/-- Recursively order-normalize a value: nested styles are sorted by key
at every level, values left intact.  Two styles have the same option set
with the same values, order-insensitively at each nesting level, exactly
when their canonicalizations are equal. -/
def canonVal : PyVal → PyVal
  | .vStyle s => .vStyle (sortStyleItems (canonItems s))
  | v => v

def canonItems : StyleItems → StyleItems
  | .nil => .nil
  | .cons k v rest => .cons k (canonVal v) (canonItems rest)
end

/-- Order-normalize a whole style. -/
def canonStyle (s : StyleItems) : StyleItems := sortStyleItems (canonItems s)

/-- Characters the rendering grammar uses as delimiters. -/
def goodChar (c : Char) : Bool :=
  !(c == '{' || c == '}' || c == ',' || c == ':' || c == ' ')

/-- A delimiter-free string. -/
def goodStr (s : List Char) : Bool := s.all goodChar

mutual
/-- Style values free of rendering collisions: string values contain no
delimiter characters and do not spell a boolean or a decimal integer
literal; keys are delimiter-free; byte strings (which `typeconv` never
leaves in a normalized style under Python 2) are excluded. -/
def saneVal : PyVal → Bool
  | .vBool _ => true
  | .vInt _ => true
  | .vStr s => goodStr s && !(s == "true".data) && !(s == "false".data) && !(isIntLit s)
  | .vBytes _ => false
  | .vStyle s => saneItems s

def saneItems : StyleItems → Bool
  | .nil => true
  | .cons k v rest => goodStr k && saneVal v && saneItems rest
end

/-- `k` is none of the keys of the style. -/
def keyNotIn (k : List Char) : StyleItems → Bool
  | .nil => true
  | .cons k2 _ rest => !(k == k2) && keyNotIn k rest

mutual
/-- Keys are duplicate-free at every nesting level (always true of
actual Python dicts). -/
def nodupVal : PyVal → Bool
  | .vStyle s => nodupItems s
  | _ => true

def nodupItems : StyleItems → Bool
  | .nil => true
  | .cons k v rest => keyNotIn k rest && nodupVal v && nodupItems rest
end

/-- Adjacent keys are `<=`-ordered at this level. -/
def adjSortedItems : StyleItems → Bool
  | .nil => true
  | .cons _ _ .nil => true
  | .cons k1 _ (.cons k2 v2 rest) => strLE k1 k2 && adjSortedItems (.cons k2 v2 rest)

mutual
/-- Every nesting level is key-sorted. -/
def canonicalVal : PyVal → Bool
  | .vStyle s => adjSortedItems s && canonicalItems s
  | _ => true

def canonicalItems : StyleItems → Bool
  | .nil => true
  | .cons _ v rest => canonicalVal v && canonicalItems rest
end

theorem strLt_asymm : ∀ a b : List Char, strLt a b = true → strLt b a = false
  | [], [] => by simp [strLt]
  | [], _ :: _ => by simp [strLt]
  | _ :: _, [] => by simp [strLt]
  | a :: as, b :: bs => by
    simp only [strLt]
    intro h
    by_cases hab : a < b
    · rw [if_neg (asymm hab), if_pos hab]
    · rw [if_neg hab] at h
      by_cases hba : b < a
      · rw [if_pos hba] at h
        exact absurd h (by simp)
      · rw [if_neg hba] at h
        rw [if_neg hba, if_neg hab]
        exact strLt_asymm as bs h

theorem strLt_conn : ∀ a b : List Char, strLt a b = false → strLt b a = false → a = b
  | [], [] => by simp
  | [], _ :: _ => by simp [strLt]
  | _ :: _, [] => by simp [strLt]
  | a :: as, b :: bs => by
    simp only [strLt]
    intro h1 h2
    by_cases hab : a < b
    · rw [if_pos hab] at h1
      exact absurd h1 (by simp)
    · by_cases hba : b < a
      · rw [if_pos hba] at h2
        exact absurd h2 (by simp)
      · rw [if_neg hab, if_neg hba] at h1
        rw [if_neg hba, if_neg hab] at h2
        have : a = b := le_antisymm (not_lt.mp hba) (not_lt.mp hab)
        rw [this, strLt_conn as bs h1 h2]

theorem strLE_of_not_strLE (a b : List Char) (h : strLE a b = false) : strLE b a = true := by
  unfold strLE at h ⊢
  rw [Bool.not_eq_false'] at h
  rw [strLt_asymm b a h]
  rfl

theorem strLE_antisymm (a b : List Char) (h1 : strLE a b = true) (h2 : strLE b a = true) :
    a = b := by
  unfold strLE at h1 h2
  rw [Bool.not_eq_true'] at h1 h2
  exact strLt_conn a b h2 h1

theorem strLt_neg_trans : ∀ a b c : List Char,
    strLt b a = false → strLt c b = false → strLt c a = false
  | [], _, c => by intro _ _; cases c <;> simp [strLt]
  | _ :: _, [], _ => by intro h1 _; simp [strLt] at h1
  | _ :: _, _ :: _, [] => by intro _ h2; simp [strLt] at h2
  | x :: as, y :: bs, z :: cs => by
    simp only [strLt]
    intro h1 h2
    by_cases hyx : y < x
    · rw [if_pos hyx] at h1
      exact absurd h1 (by simp)
    rw [if_neg hyx] at h1
    by_cases hzy : z < y
    · rw [if_pos hzy] at h2
      exact absurd h2 (by simp)
    rw [if_neg hzy] at h2
    by_cases hzx : z < x
    · exfalso
      by_cases hxy : x < y
      · exact hzy (lt_trans hzx hxy)
      · have hxy2 : x = y := le_antisymm (not_lt.mp hyx) (not_lt.mp hxy)
        exact hzy (by rw [← hxy2]; exact hzx)
    rw [if_neg hzx]
    by_cases hxz : x < z
    · rw [if_pos hxz]
    rw [if_neg hxz]
    have hxz2 : x = z := le_antisymm (not_lt.mp hzx) (not_lt.mp hxz)
    by_cases hxy : x < y
    · exact absurd (show z < y from by rw [← hxz2]; exact hxy) hzy
    · have hxy2 : x = y := le_antisymm (not_lt.mp hyx) (not_lt.mp hxy)
      rw [if_neg hxy] at h1
      rw [if_neg (show ¬ (y < z) from by rw [← hxy2]; exact hxz)] at h2
      exact strLt_neg_trans as bs cs h1 h2

theorem strLE_trans (a b c : List Char) (h1 : strLE a b = true) (h2 : strLE b c = true) :
    strLE a c = true := by
  unfold strLE at h1 h2 ⊢
  rw [Bool.not_eq_true'] at h1 h2
  rw [Bool.not_eq_true']
  exact strLt_neg_trans a b c h1 h2

/-- The sortedness relation used for rendered items. -/
def keyLE {V : Type} (p q : List Char × V) : Prop := strLE p.1 q.1 = true

theorem insertByKey_perm {V : Type} (p : List Char × V) :
    ∀ l : List (List Char × V), List.Perm (insertByKey p l) (p :: l) := by
  intro l
  induction l with
  | nil => exact List.Perm.refl _
  | cons q rest ih =>
    simp only [insertByKey]
    by_cases h : strLE p.1 q.1 = true
    · rw [if_pos h]
    · rw [if_neg h]
      exact (ih.cons q).trans (List.Perm.swap p q rest)

theorem sortPairsByKey_perm {V : Type} :
    ∀ l : List (List Char × V), List.Perm (sortPairsByKey l) l := by
  intro l
  induction l with
  | nil => exact List.Perm.refl _
  | cons p rest ih =>
    simp only [sortPairsByKey]
    exact (insertByKey_perm p (sortPairsByKey rest)).trans (ih.cons p)

theorem insertByKey_pairwise {V : Type} (p : List Char × V) :
    ∀ l : List (List Char × V), l.Pairwise keyLE → (insertByKey p l).Pairwise keyLE := by
  intro l
  induction l with
  | nil =>
    intro _
    simp only [insertByKey]
    exact List.pairwise_singleton _ _
  | cons q rest ih =>
    intro hp
    rw [List.pairwise_cons] at hp
    simp only [insertByKey]
    by_cases h : strLE p.1 q.1 = true
    · rw [if_pos h]
      rw [List.pairwise_cons]
      constructor
      · intro x hx
        rcases List.mem_cons.mp hx with rfl | hx2
        · exact h
        · exact strLE_trans p.1 q.1 x.1 h (hp.1 x hx2)
      · rw [List.pairwise_cons]
        exact hp
    · rw [if_neg h]
      rw [List.pairwise_cons]
      constructor
      · intro x hx
        have hmem := (insertByKey_perm p rest).mem_iff.mp hx
        rcases List.mem_cons.mp hmem with h3 | hx2
        · rw [h3]
          exact strLE_of_not_strLE p.1 q.1 (by simpa using h)
        · exact hp.1 x hx2
      · exact ih hp.2

theorem sortPairsByKey_pairwise {V : Type} :
    ∀ l : List (List Char × V), (sortPairsByKey l).Pairwise keyLE := by
  intro l
  induction l with
  | nil => simp [sortPairsByKey]
  | cons p rest ih =>
    simp only [sortPairsByKey]
    exact insertByKey_pairwise p _ ih

theorem sortPairsByKey_eq_self {V : Type} :
    ∀ l : List (List Char × V), l.Pairwise keyLE → sortPairsByKey l = l := by
  intro l
  induction l with
  | nil => intro _; rfl
  | cons p rest ih =>
    intro hp
    rw [List.pairwise_cons] at hp
    simp only [sortPairsByKey]
    rw [ih hp.2]
    cases rest with
    | nil => rfl
    | cons q r2 =>
      simp only [insertByKey]
      rw [if_pos (show strLE p.1 q.1 = true from hp.1 q (List.mem_cons_self _ _))]

theorem insertByKey_map_snd {V W : Type} (f : V → W) (p : List Char × V) :
    ∀ l : List (List Char × V),
      (insertByKey p l).map (fun kv => (kv.1, f kv.2)) =
        insertByKey (p.1, f p.2) (l.map (fun kv => (kv.1, f kv.2))) := by
  intro l
  induction l with
  | nil => rfl
  | cons q rest ih =>
    simp only [insertByKey, List.map_cons]
    by_cases h : strLE p.1 q.1 = true
    · rw [if_pos h, if_pos h]
      simp
    · rw [if_neg h, if_neg h]
      simp only [List.map_cons]
      rw [ih]

theorem sortPairsByKey_map_snd {V W : Type} (f : V → W) :
    ∀ l : List (List Char × V),
      (sortPairsByKey l).map (fun kv => (kv.1, f kv.2)) =
        sortPairsByKey (l.map (fun kv => (kv.1, f kv.2))) := by
  intro l
  induction l with
  | nil => rfl
  | cons p rest ih =>
    simp only [sortPairsByKey, List.map_cons]
    rw [insertByKey_map_snd, ih]

theorem toPairs_insertItem (k : List Char) (v : PyVal) :
    ∀ t : StyleItems, (insertItem k v t).toPairs = insertByKey (k, v) t.toPairs
  | .nil => rfl
  | .cons k2 v2 rest => by
    simp only [insertItem, StyleItems.toPairs, insertByKey]
    by_cases h : strLE k k2 = true
    · rw [if_pos h, if_pos h]
      rfl
    · rw [if_neg h, if_neg h]
      simp only [StyleItems.toPairs]
      rw [toPairs_insertItem k v rest]

theorem toPairs_sortStyleItems :
    ∀ s : StyleItems, (sortStyleItems s).toPairs = sortPairsByKey s.toPairs
  | .nil => rfl
  | .cons k v rest => by
    simp only [sortStyleItems, StyleItems.toPairs, sortPairsByKey]
    rw [toPairs_insertItem, toPairs_sortStyleItems rest]

theorem renderItems_eq_map :
    ∀ s : StyleItems, renderItems s = s.toPairs.map (fun kv => (kv.1, renderVal kv.2))
  | .nil => rfl
  | .cons k v rest => by
    simp only [renderItems, StyleItems.toPairs, List.map_cons]
    rw [renderItems_eq_map rest]

/-- Sorting the style first and then rendering gives the same sorted
rendered items: the sort only inspects keys. -/
theorem renderItems_sortStyleItems (s : StyleItems) :
    sortPairsByKey (renderItems (sortStyleItems s)) = sortPairsByKey (renderItems s) := by
  rw [renderItems_eq_map (sortStyleItems s), toPairs_sortStyleItems,
    sortPairsByKey_map_snd, ← renderItems_eq_map]
  exact sortPairsByKey_eq_self _ (sortPairsByKey_pairwise _)

theorem canon_render (n : Nat) :
    (∀ v : PyVal, sizeOf v ≤ n → renderVal (canonVal v) = renderVal v) ∧
    (∀ s : StyleItems, sizeOf s ≤ n → renderItems (canonItems s) = renderItems s) := by
  induction n using Nat.strong_induction_on with
  | _ n ih =>
    constructor
    · intro v hv
      cases v with
      | vStyle s =>
        have hm : sizeOf s < n := by
          have : sizeOf s < sizeOf (PyVal.vStyle s) := by
            simp [PyVal.vStyle.sizeOf_spec]
          omega
        show renderVal (.vStyle (sortStyleItems (canonItems s))) = renderVal (.vStyle s)
        simp only [renderVal]
        have hinner : sortPairsByKey (renderItems (sortStyleItems (canonItems s))) =
            sortPairsByKey (renderItems s) := by
          rw [renderItems_sortStyleItems (canonItems s), (ih (sizeOf s) hm).2 s (le_refl _)]
        rw [hinner]
      | vBool b => rfl
      | vInt i => rfl
      | vStr s => rfl
      | vBytes b => rfl
    · intro s hs
      cases s with
      | nil => rfl
      | cons k v rest =>
        have hmv : sizeOf v < n := by
          have : sizeOf v < sizeOf (StyleItems.cons k v rest) := by
            rw [StyleItems.cons.sizeOf_spec]
            omega
          omega
        have hmr : sizeOf rest < n := by
          have : sizeOf rest < sizeOf (StyleItems.cons k v rest) := by
            rw [StyleItems.cons.sizeOf_spec]
            omega
          omega
        simp only [canonItems, renderItems]
        rw [(ih (sizeOf v) hmv).1 v (le_refl _), (ih (sizeOf rest) hmr).2 rest (le_refl _)]

theorem renderVal_canonVal (v : PyVal) : renderVal (canonVal v) = renderVal v :=
  (canon_render (sizeOf v)).1 v (le_refl _)

theorem normrepr_canonStyle (s : StyleItems) : normrepr (canonStyle s) = normrepr s :=
  renderVal_canonVal (.vStyle s)

/-- Appends of delimiter-free prefixes, each followed by a delimiter (or
by the end of the string), split uniquely. -/
theorem delim_split (bad : Char → Prop) :
    ∀ a b r1 r2 : List Char, (∀ c ∈ a, ¬ bad c) → (∀ c ∈ b, ¬ bad c) →
      (r1 = [] ∨ ∃ c t, r1 = c :: t ∧ bad c) → (r2 = [] ∨ ∃ c t, r2 = c :: t ∧ bad c) →
      a ++ r1 = b ++ r2 → a = b ∧ r1 = r2
  | [], b, r1, r2 => by
    intro _ hb hr1 _ heq
    cases b with
    | nil => exact ⟨rfl, heq⟩
    | cons d b2 =>
      exfalso
      simp only [List.nil_append, List.cons_append] at heq
      rcases hr1 with rfl | ⟨c, t, rfl, hbad⟩
      · exact List.noConfusion heq
      · have hcd : c = d := by injection heq
        exact hb d (List.mem_cons_self _ _) (hcd ▸ hbad)
  | x :: a2, b, r1, r2 => by
    intro ha hb hr1 hr2 heq
    cases b with
    | nil =>
      exfalso
      simp only [List.cons_append, List.nil_append] at heq
      rcases hr2 with rfl | ⟨c, t, rfl, hbad⟩
      · exact List.noConfusion heq.symm
      · have hcd : c = x := by injection heq.symm
        exact ha x (List.mem_cons_self _ _) (hcd ▸ hbad)
    | cons d b2 =>
      simp only [List.cons_append] at heq
      have hx : x = d := by injection heq
      have htail : a2 ++ r1 = b2 ++ r2 := by injection heq
      obtain ⟨h1, h2⟩ := delim_split bad a2 b2 r1 r2
        (fun c hc => ha c (List.mem_cons_of_mem _ hc))
        (fun c hc => hb c (List.mem_cons_of_mem _ hc)) hr1 hr2 htail
      exact ⟨by rw [hx, h1], h2⟩

theorem goodChar_spec (c : Char) (h : goodChar c = true) :
    c ≠ '{' ∧ c ≠ '}' ∧ c ≠ ',' ∧ c ≠ ':' ∧ c ≠ ' ' := by
  refine ⟨?_, ?_, ?_, ?_, ?_⟩ <;> (rintro rfl; exact absurd h (by decide))

theorem digit_not_delim (c : Char) (h : isDigitChar c = true) :
    c ≠ '{' ∧ c ≠ '}' ∧ c ≠ ',' := by
  refine ⟨?_, ?_, ?_⟩ <;> (rintro rfl; exact absurd h (by decide))

theorem true_data_eq : "true".data = ['t', 'r', 'u', 'e'] := rfl

theorem false_data_eq : "false".data = ['f', 'a', 'l', 's', 'e'] := rfl

theorem goodStr_spec (s : List Char) (hg : goodStr s = true) :
    ∀ c ∈ s, c ≠ '{' ∧ c ≠ '}' ∧ c ≠ ',' ∧ c ≠ ':' ∧ c ≠ ' ' := by
  intro c hc
  unfold goodStr at hg
  rw [List.all_eq_true] at hg
  exact goodChar_spec c (hg c hc)

theorem saneVal_vStr_parts (s : List Char) (h : saneVal (.vStr s) = true) :
    goodStr s = true ∧ s ≠ "true".data ∧ s ≠ "false".data ∧ isIntLit s = false := by
  simp only [saneVal, Bool.and_eq_true, Bool.not_eq_true', beq_eq_false_iff_ne] at h
  exact ⟨h.1.1.1, h.1.1.2, h.1.2, h.2⟩

/-- Scalar renders contain none of the characters `{`, `}`, `,`. -/
theorem scalarRender_good (v : PyVal) (hs : saneVal v = true) (hv : ∀ s, v ≠ .vStyle s) :
    ∀ c ∈ renderVal v, c ≠ '{' ∧ c ≠ '}' ∧ c ≠ ',' := by
  cases v with
  | vStyle s => exact absurd rfl (hv s)
  | vBytes b => exact absurd hs (by simp [saneVal])
  | vBool b =>
    intro c hc
    cases b with
    | true =>
      have hmem : c ∈ ['t', 'r', 'u', 'e'] := by
        simpa [renderVal, textrepr, true_data_eq] using hc
      fin_cases hmem <;> refine ⟨by decide, by decide, by decide⟩
    | false =>
      have hmem : c ∈ ['f', 'a', 'l', 's', 'e'] := by
        simpa [renderVal, textrepr, false_data_eq] using hc
      fin_cases hmem <;> refine ⟨by decide, by decide, by decide⟩
  | vInt i =>
    intro c hc
    have hmem : c ∈ intRepr i := by simpa [renderVal, textrepr] using hc
    rcases mem_intRepr i c hmem with rfl | hd
    · exact ⟨by decide, by decide, by decide⟩
    · exact digit_not_delim c hd
  | vStr s =>
    intro c hc
    have hmem : c ∈ s := by simpa [renderVal, textrepr] using hc
    obtain ⟨hg, -, -, -⟩ := saneVal_vStr_parts s hs
    obtain ⟨g1, g2, g3, -, -⟩ := goodStr_spec s hg c hmem
    exact ⟨g1, g2, g3⟩

theorem isIntLit_intRepr (i : Int) : isIntLit (intRepr i) = true := by
  unfold intRepr
  by_cases hi : i < 0
  · rw [if_pos hi]
    obtain ⟨c, rest, hrepr⟩ := List.exists_cons_of_ne_nil (natRepr_ne_nil i.natAbs)
    rw [hrepr]
    simp only [isIntLit]
    rw [if_pos trivial]
    have hall : (c :: rest).all isDigitChar = true := by
      rw [← hrepr, List.all_eq_true]
      exact mem_natRepr_isDigit _
    simp [hall]
  · rw [if_neg hi]
    obtain ⟨c, rest, hrepr⟩ := List.exists_cons_of_ne_nil (natRepr_ne_nil i.toNat)
    have hc : isDigitChar c = true := by
      apply mem_natRepr_isDigit i.toNat
      rw [hrepr]
      exact List.mem_cons_self _ _
    have hcm : ¬ (c = '-') := by rintro rfl; exact absurd hc (by decide)
    rw [hrepr]
    simp only [isIntLit]
    rw [if_neg hcm]
    rw [← hrepr, List.all_eq_true]
    exact mem_natRepr_isDigit _

theorem intRepr_inj (i j : Int) (h : intRepr i = intRepr j) : i = j := by
  unfold intRepr at h
  by_cases hi : i < 0 <;> by_cases hj : j < 0
  · rw [if_pos hi, if_pos hj] at h
    have h2 : natRepr i.natAbs = natRepr j.natAbs := by injection h
    have := natRepr_injective h2
    omega
  · rw [if_pos hi, if_neg hj] at h
    obtain ⟨c, rest, hrepr⟩ := List.exists_cons_of_ne_nil (natRepr_ne_nil j.toNat)
    rw [hrepr, List.cons.injEq] at h
    have hd : isDigitChar c = true := by
      apply mem_natRepr_isDigit j.toNat
      rw [hrepr]
      exact List.mem_cons_self _ _
    rw [← h.1] at hd
    exact absurd hd (by decide)
  · rw [if_neg hi, if_pos hj] at h
    obtain ⟨c, rest, hrepr⟩ := List.exists_cons_of_ne_nil (natRepr_ne_nil i.toNat)
    rw [hrepr, List.cons.injEq] at h
    have hd : isDigitChar c = true := by
      apply mem_natRepr_isDigit i.toNat
      rw [hrepr]
      exact List.mem_cons_self _ _
    rw [h.1] at hd
    exact absurd hd (by decide)
  · rw [if_neg hi, if_neg hj] at h
    have := natRepr_injective h
    omega

/-- Two sane scalar values with equal renders are equal. -/
theorem scalarRender_inj (v1 v2 : PyVal) (h1 : saneVal v1 = true) (h2 : saneVal v2 = true)
    (ns1 : ∀ s, v1 ≠ .vStyle s) (ns2 : ∀ s, v2 ≠ .vStyle s)
    (heq : renderVal v1 = renderVal v2) : v1 = v2 := by
  cases v1 with
  | vStyle s => exact absurd rfl (ns1 s)
  | vBytes b => exact absurd h1 (by simp [saneVal])
  | vBool b1 =>
    cases v2 with
    | vStyle s => exact absurd rfl (ns2 s)
    | vBytes b => exact absurd h2 (by simp [saneVal])
    | vBool b2 =>
      cases b1 <;> cases b2
      · rfl
      · exact absurd heq (by decide)
      · exact absurd heq (by decide)
      · rfl
    | vInt i =>
      exfalso
      simp only [renderVal, textrepr] at heq
      cases b1 with
      | true =>
        have hmem : 't' ∈ intRepr i := by rw [← heq]; decide
        rcases mem_intRepr i 't' hmem with hh | hh
        · exact absurd hh (by decide)
        · exact absurd hh (by decide)
      | false =>
        have hmem : 'f' ∈ intRepr i := by rw [← heq]; decide
        rcases mem_intRepr i 'f' hmem with hh | hh
        · exact absurd hh (by decide)
        · exact absurd hh (by decide)
    | vStr s =>
      exfalso
      simp only [renderVal, textrepr] at heq
      obtain ⟨-, ht, hf, -⟩ := saneVal_vStr_parts s h2
      cases b1 with
      | true => exact ht heq.symm
      | false => exact hf heq.symm
  | vInt i1 =>
    cases v2 with
    | vStyle s => exact absurd rfl (ns2 s)
    | vBytes b => exact absurd h2 (by simp [saneVal])
    | vInt i2 =>
      simp only [renderVal, textrepr] at heq
      rw [intRepr_inj i1 i2 heq]
    | vBool b2 =>
      exfalso
      simp only [renderVal, textrepr] at heq
      cases b2 with
      | true =>
        have hmem : 't' ∈ intRepr i1 := by rw [heq]; decide
        rcases mem_intRepr i1 't' hmem with hh | hh
        · exact absurd hh (by decide)
        · exact absurd hh (by decide)
      | false =>
        have hmem : 'f' ∈ intRepr i1 := by rw [heq]; decide
        rcases mem_intRepr i1 'f' hmem with hh | hh
        · exact absurd hh (by decide)
        · exact absurd hh (by decide)
    | vStr s =>
      exfalso
      simp only [renderVal, textrepr] at heq
      obtain ⟨-, -, -, hil⟩ := saneVal_vStr_parts s h2
      rw [← heq, isIntLit_intRepr] at hil
      exact Bool.noConfusion hil
  | vStr s1 =>
    cases v2 with
    | vStyle s => exact absurd rfl (ns2 s)
    | vBytes b => exact absurd h2 (by simp [saneVal])
    | vStr s2 =>
      simp only [renderVal, textrepr] at heq
      rw [heq]
    | vBool b2 =>
      exfalso
      simp only [renderVal, textrepr] at heq
      obtain ⟨-, ht, hf, -⟩ := saneVal_vStr_parts s1 h1
      cases b2 with
      | true => exact ht heq
      | false => exact hf heq
    | vInt i2 =>
      exfalso
      simp only [renderVal, textrepr] at heq
      obtain ⟨-, -, -, hil⟩ := saneVal_vStr_parts s1 h1
      rw [heq, isIntLit_intRepr] at hil
      exact Bool.noConfusion hil

/-- What may legally follow a rendered value: nothing, a separating
comma, or the closing brace. -/
def ContTerm (r : List Char) : Prop :=
  r = [] ∨ (∃ t, r = ',' :: t) ∨ (∃ t, r = '}' :: t)

theorem contTerm_delim (r : List Char) (h : ContTerm r) :
    r = [] ∨ ∃ c t, r = c :: t ∧ (c = ',' ∨ c = '}') := by
  rcases h with rfl | ⟨t, rfl⟩ | ⟨t, rfl⟩
  · exact Or.inl rfl
  · exact Or.inr ⟨',', t, rfl, Or.inl rfl⟩
  · exact Or.inr ⟨'}', t, rfl, Or.inr rfl⟩

/-- The body of a rendered style, before sorting is taken into account. -/
def bodyRender (s : StyleItems) : List Char :=
  joinCommaSep ((renderItems s).map itemRender)

/-- The text that follows one rendered item: the closing brace, or a
comma and the remaining items. -/
def sepAfter (t : StyleItems) (r : List Char) : List Char :=
  match t with
  | .nil => '}' :: r
  | .cons k v rest => ',' :: ' ' :: (bodyRender (.cons k v rest) ++ '}' :: r)

theorem contTerm_sepAfter (t : StyleItems) (r : List Char) : ContTerm (sepAfter t r) := by
  cases t with
  | nil => exact Or.inr (Or.inr ⟨r, rfl⟩)
  | cons k v rest => exact Or.inr (Or.inl ⟨_, rfl⟩)

theorem bodyRender_append (k : List Char) (v : PyVal) (t : StyleItems) (r : List Char) :
    bodyRender (.cons k v t) ++ '}' :: r = k ++ ':' :: ' ' :: (renderVal v ++ sepAfter t r) := by
  cases t with
  | nil =>
    simp only [bodyRender, renderItems, List.map_cons, List.map_nil, joinCommaSep,
      itemRender, sepAfter]
    simp [List.append_assoc]
  | cons k2 v2 rest =>
    simp only [bodyRender, renderItems, List.map_cons, joinCommaSep, itemRender, sepAfter]
    simp [List.append_assoc]

theorem saneItems_parts (k : List Char) (v : PyVal) (rest : StyleItems)
    (h : saneItems (.cons k v rest) = true) :
    goodStr k = true ∧ saneVal v = true ∧ saneItems rest = true := by
  simp only [saneItems, Bool.and_eq_true] at h
  exact ⟨h.1.1, h.1.2, h.2⟩

theorem canonicalVal_style_parts (s : StyleItems) (h : canonicalVal (.vStyle s) = true) :
    adjSortedItems s = true ∧ canonicalItems s = true := by
  simp only [canonicalVal, Bool.and_eq_true] at h
  exact h

theorem canonicalItems_parts (k : List Char) (v : PyVal) (rest : StyleItems)
    (h : canonicalItems (.cons k v rest) = true) :
    canonicalVal v = true ∧ canonicalItems rest = true := by
  simp only [canonicalItems, Bool.and_eq_true] at h
  exact h

theorem adjSorted_head (k1 : List Char) (v1 : PyVal) (k2 : List Char) (v2 : PyVal)
    (rest : StyleItems) (h : adjSortedItems (.cons k1 v1 (.cons k2 v2 rest)) = true) :
    strLE k1 k2 = true ∧ adjSortedItems (.cons k2 v2 rest) = true := by
  simp only [adjSortedItems, Bool.and_eq_true] at h
  exact ⟨h.1, h.2⟩

theorem pairwise_renderItems_of_adj :
    ∀ s : StyleItems, adjSortedItems s = true → (renderItems s).Pairwise keyLE
  | .nil => by intro _; simp [renderItems]
  | .cons k v .nil => by
    intro _
    simp only [renderItems]
    exact List.pairwise_singleton _ _
  | .cons k1 v1 (.cons k2 v2 rest) => by
    intro h
    obtain ⟨h12, htail⟩ := adjSorted_head k1 v1 k2 v2 rest h
    have ih := pairwise_renderItems_of_adj (.cons k2 v2 rest) htail
    simp only [renderItems] at ih ⊢
    rw [List.pairwise_cons]
    refine ⟨?_, ih⟩
    intro x hx
    rcases List.mem_cons.mp hx with h3 | hx2
    · rw [h3]
      exact h12
    · have h4 := (List.pairwise_cons.mp ih).1 x hx2
      exact strLE_trans k1 k2 x.1 h12 h4

theorem renderVal_style_append (s : StyleItems) (h : adjSortedItems s = true)
    (r : List Char) :
    renderVal (.vStyle s) ++ r = '{' :: (bodyRender s ++ '}' :: r) := by
  simp only [renderVal, sortPairsByKey_eq_self _ (pairwise_renderItems_of_adj s h),
    bodyRender]
  simp [List.append_assoc]

theorem style_scalar_absurd (s1 : StyleItems) (v2 : PyVal) (r1 r2 : List Char)
    (h2 : saneVal v2 = true) (ns2 : ∀ s, v2 ≠ .vStyle s) (hadj : adjSortedItems s1 = true)
    (hr2 : ContTerm r2)
    (heq : renderVal (.vStyle s1) ++ r1 = renderVal v2 ++ r2) : False := by
  rw [renderVal_style_append s1 hadj r1] at heq
  cases hrv : renderVal v2 with
  | nil =>
    rw [hrv, List.nil_append] at heq
    rcases hr2 with rfl | ⟨t, rfl⟩ | ⟨t, rfl⟩
    · exact List.noConfusion heq
    · have : '{' = ',' := by injection heq
      exact absurd this (by decide)
    · have : '{' = '}' := by injection heq
      exact absurd this (by decide)
  | cons c t2 =>
    have hgood := scalarRender_good v2 h2 ns2 c (hrv ▸ List.mem_cons_self c t2)
    rw [hrv, List.cons_append] at heq
    have : '{' = c := by injection heq
    exact hgood.1 this.symm

theorem scalar_scalar_split (v1 v2 : PyVal) (r1 r2 : List Char)
    (h1 : saneVal v1 = true) (h2 : saneVal v2 = true)
    (ns1 : ∀ s, v1 ≠ .vStyle s) (ns2 : ∀ s, v2 ≠ .vStyle s)
    (hr1 : ContTerm r1) (hr2 : ContTerm r2)
    (heq : renderVal v1 ++ r1 = renderVal v2 ++ r2) : v1 = v2 ∧ r1 = r2 := by
  have g1 := scalarRender_good v1 h1 ns1
  have g2 := scalarRender_good v2 h2 ns2
  obtain ⟨hrend, hrr⟩ := delim_split (fun c => c = ',' ∨ c = '}')
    (renderVal v1) (renderVal v2) r1 r2
    (fun c hc hb => by rcases hb with rfl | rfl
                       · exact (g1 ',' hc).2.2 rfl
                       · exact (g1 '}' hc).2.1 rfl)
    (fun c hc hb => by rcases hb with rfl | rfl
                       · exact (g2 ',' hc).2.2 rfl
                       · exact (g2 '}' hc).2.1 rfl)
    (contTerm_delim r1 hr1) (contTerm_delim r2 hr2) heq
  exact ⟨scalarRender_inj v1 v2 h1 h2 ns1 ns2 hrend, hrr⟩

/-- Unique decodability of `normrepr` renders on sane, key-sorted
styles, by strong induction on size: a rendered value (or item list)
followed by a legal continuation determines both. -/
theorem renderInjAux : ∀ n : Nat,
    (∀ v1 v2 : PyVal, ∀ r1 r2 : List Char, sizeOf v1 ≤ n → saneVal v1 = true →
      saneVal v2 = true → canonicalVal v1 = true → canonicalVal v2 = true →
      ContTerm r1 → ContTerm r2 →
      renderVal v1 ++ r1 = renderVal v2 ++ r2 → v1 = v2 ∧ r1 = r2) ∧
    (∀ s1 s2 : StyleItems, ∀ r1 r2 : List Char, sizeOf s1 ≤ n → saneItems s1 = true →
      saneItems s2 = true → canonicalItems s1 = true → canonicalItems s2 = true →
      bodyRender s1 ++ '}' :: r1 = bodyRender s2 ++ '}' :: r2 → s1 = s2 ∧ r1 = r2) := by
  intro n
  induction n using Nat.strong_induction_on with
  | _ n ih =>
    constructor
    · intro v1 v2 r1 r2 hsz h1 h2 hc1 hc2 hr1 hr2 heq
      by_cases hy1 : ∀ s, v1 ≠ PyVal.vStyle s
      · by_cases hy2 : ∀ s, v2 ≠ PyVal.vStyle s
        · exact scalar_scalar_split v1 v2 r1 r2 h1 h2 hy1 hy2 hr1 hr2 heq
        · exfalso
          push_neg at hy2
          obtain ⟨s2, rfl⟩ := hy2
          obtain ⟨hadj2, -⟩ := canonicalVal_style_parts s2 hc2
          exact style_scalar_absurd s2 v1 r2 r1 h1 hy1 hadj2 hr1 heq.symm
      · push_neg at hy1
        obtain ⟨s1, rfl⟩ := hy1
        obtain ⟨hadj1, hci1⟩ := canonicalVal_style_parts s1 hc1
        by_cases hy2 : ∀ s, v2 ≠ PyVal.vStyle s
        · exact absurd heq (fun hh => style_scalar_absurd s1 v2 r1 r2 h2 hy2 hadj1 hr2 hh)
        · push_neg at hy2
          obtain ⟨s2, rfl⟩ := hy2
          obtain ⟨hadj2, hci2⟩ := canonicalVal_style_parts s2 hc2
          rw [renderVal_style_append s1 hadj1 r1, renderVal_style_append s2 hadj2 r2] at heq
          have hbody : bodyRender s1 ++ '}' :: r1 = bodyRender s2 ++ '}' :: r2 := by
            rw [List.cons.injEq] at heq
            exact heq.2
          have hm : sizeOf s1 < n := by
            have : sizeOf s1 < sizeOf (PyVal.vStyle s1) := by
              rw [PyVal.vStyle.sizeOf_spec]
              omega
            omega
          obtain ⟨hseq, hreq⟩ := (ih (sizeOf s1) hm).2 s1 s2 r1 r2 (le_refl _)
            h1 h2 hci1 hci2 hbody
          exact ⟨by rw [hseq], hreq⟩
    · intro s1 s2 r1 r2 hsz h1 h2 hc1 hc2 heq
      cases s1 with
      | nil =>
        cases s2 with
        | nil =>
          refine ⟨rfl, ?_⟩
          have h' : ('}' :: r1 : List Char) = '}' :: r2 := heq
          rw [List.cons.injEq] at h'
          exact h'.2
        | cons k2 v2 t2 =>
          exfalso
          rw [bodyRender_append k2 v2 t2 r2] at heq
          have hLHS : bodyRender StyleItems.nil ++ '}' :: r1 = '}' :: r1 := rfl
          rw [hLHS] at heq
          obtain ⟨hk2good, -, -⟩ := saneItems_parts k2 v2 t2 h2
          cases k2 with
          | nil =>
            rw [List.nil_append] at heq
            have h9 : '}' = ':' := by injection heq
            exact absurd h9 (by decide)
          | cons c k2' =>
            rw [List.cons_append] at heq
            have h9 : '}' = c := by injection heq
            exact (goodStr_spec _ hk2good c (List.mem_cons_self _ _)).2.1 h9.symm
      | cons k1 v1 t1 =>
        cases s2 with
        | nil =>
          exfalso
          rw [bodyRender_append k1 v1 t1 r1] at heq
          have hRHS : bodyRender StyleItems.nil ++ '}' :: r2 = '}' :: r2 := rfl
          rw [hRHS] at heq
          obtain ⟨hk1good, -, -⟩ := saneItems_parts k1 v1 t1 h1
          cases k1 with
          | nil =>
            rw [List.nil_append] at heq
            have h9 : ':' = '}' := by injection heq
            exact absurd h9 (by decide)
          | cons c k1' =>
            rw [List.cons_append] at heq
            have h9 : c = '}' := by injection heq
            exact (goodStr_spec _ hk1good c (List.mem_cons_self _ _)).2.1 h9
        | cons k2 v2 t2 =>
          rw [bodyRender_append k1 v1 t1 r1, bodyRender_append k2 v2 t2 r2] at heq
          obtain ⟨hk1g, hv1s, ht1s⟩ := saneItems_parts k1 v1 t1 h1
          obtain ⟨hk2g, hv2s, ht2s⟩ := saneItems_parts k2 v2 t2 h2
          obtain ⟨hv1c, ht1c⟩ := canonicalItems_parts k1 v1 t1 hc1
          obtain ⟨hv2c, ht2c⟩ := canonicalItems_parts k2 v2 t2 hc2
          obtain ⟨hkeq, hrest⟩ := delim_split (fun c => c = ':') k1 k2 _ _
            (fun c hc hb => ((goodStr_spec k1 hk1g c hc).2.2.2.1) hb)
            (fun c hc hb => ((goodStr_spec k2 hk2g c hc).2.2.2.1) hb)
            (Or.inr ⟨':', _, rfl, rfl⟩) (Or.inr ⟨':', _, rfl, rfl⟩) heq
          have hval : renderVal v1 ++ sepAfter t1 r1 = renderVal v2 ++ sepAfter t2 r2 := by
            rw [List.cons.injEq, List.cons.injEq] at hrest
            exact hrest.2.2
          have hmv : sizeOf v1 < n := by
            have : sizeOf v1 < sizeOf (StyleItems.cons k1 v1 t1) := by
              rw [StyleItems.cons.sizeOf_spec]
              omega
            omega
          obtain ⟨hveq, hsep⟩ := (ih (sizeOf v1) hmv).1 v1 v2 _ _ (le_refl _)
            hv1s hv2s hv1c hv2c (contTerm_sepAfter t1 r1) (contTerm_sepAfter t2 r2) hval
          cases t1 with
          | nil =>
            cases t2 with
            | nil =>
              refine ⟨?_, ?_⟩
              · rw [hkeq, hveq]
              · have h' : ('}' :: r1 : List Char) = '}' :: r2 := hsep
                rw [List.cons.injEq] at h'
                exact h'.2
            | cons k4 v4 t4 =>
              exfalso
              have h' : ('}' :: r1 : List Char) =
                  ',' :: ' ' :: (bodyRender (.cons k4 v4 t4) ++ '}' :: r2) := hsep
              have h9 : '}' = ',' := by injection h'
              exact absurd h9 (by decide)
          | cons k3 v3 t3 =>
            cases t2 with
            | nil =>
              exfalso
              have h' : (',' :: ' ' :: (bodyRender (.cons k3 v3 t3) ++ '}' :: r1) :
                  List Char) = '}' :: r2 := hsep
              have h9 : ',' = '}' := by injection h'
              exact absurd h9 (by decide)
            | cons k4 v4 t4 =>
              have hbody2 : bodyRender (.cons k3 v3 t3) ++ '}' :: r1 =
                  bodyRender (.cons k4 v4 t4) ++ '}' :: r2 := by
                have h' : (',' :: ' ' :: (bodyRender (.cons k3 v3 t3) ++ '}' :: r1) :
                    List Char) = ',' :: ' ' :: (bodyRender (.cons k4 v4 t4) ++ '}' :: r2) :=
                  hsep
                rw [List.cons.injEq, List.cons.injEq] at h'
                exact h'.2.2
              have hmt : sizeOf (StyleItems.cons k3 v3 t3) < n := by
                have houter := StyleItems.cons.sizeOf_spec k1 v1 (StyleItems.cons k3 v3 t3)
                omega
              obtain ⟨hteq, hreq⟩ := (ih _ hmt).2 (.cons k3 v3 t3) (.cons k4 v4 t4) r1 r2
                (le_refl _) ht1s ht2s ht1c ht2c hbody2
              exact ⟨by rw [hkeq, hveq, hteq], hreq⟩

theorem saneItems_insertItem (k : List Char) (v : PyVal) :
    ∀ t : StyleItems, goodStr k = true → saneVal v = true → saneItems t = true →
      saneItems (insertItem k v t) = true
  | .nil => by
    intro hk hv _
    simp [insertItem, saneItems, hk, hv]
  | .cons k2 v2 rest => by
    intro hk hv ht
    obtain ⟨hk2, hv2, hrest⟩ := saneItems_parts k2 v2 rest ht
    simp only [insertItem]
    by_cases h : strLE k k2 = true
    · rw [if_pos h]
      simp [saneItems, hk, hv, hk2, hv2, hrest]
    · rw [if_neg h]
      have hrec := saneItems_insertItem k v rest hk hv hrest
      simp [saneItems, hk2, hv2, hrec]

theorem saneItems_sortStyleItems :
    ∀ s : StyleItems, saneItems s = true → saneItems (sortStyleItems s) = true
  | .nil => by intro _; rfl
  | .cons k v rest => by
    intro hs
    obtain ⟨hk, hv, hrest⟩ := saneItems_parts k v rest hs
    simp only [sortStyleItems]
    exact saneItems_insertItem k v _ hk hv (saneItems_sortStyleItems rest hrest)

theorem sane_canon (n : Nat) :
    (∀ v : PyVal, sizeOf v ≤ n → saneVal v = true → saneVal (canonVal v) = true) ∧
    (∀ s : StyleItems, sizeOf s ≤ n → saneItems s = true →
      saneItems (canonItems s) = true) := by
  induction n using Nat.strong_induction_on with
  | _ n ih =>
    constructor
    · intro v hv hs
      cases v with
      | vStyle s =>
        have hm : sizeOf s < n := by
          have := PyVal.vStyle.sizeOf_spec s
          omega
        simp only [canonVal, saneVal]
        exact saneItems_sortStyleItems _ ((ih (sizeOf s) hm).2 s (le_refl _) hs)
      | vBool b => exact hs
      | vInt i => exact hs
      | vStr s => exact hs
      | vBytes b => exact hs
    · intro s hsz hs
      cases s with
      | nil => exact hs
      | cons k v rest =>
        obtain ⟨hk, hv, hrest⟩ := saneItems_parts k v rest hs
        have hmv : sizeOf v < n := by
          have := StyleItems.cons.sizeOf_spec k v rest
          omega
        have hmr : sizeOf rest < n := by
          have := StyleItems.cons.sizeOf_spec k v rest
          omega
        have h1 := (ih (sizeOf v) hmv).1 v (le_refl _) hv
        have h2 := (ih (sizeOf rest) hmr).2 rest (le_refl _) hrest
        simp [canonItems, saneItems, hk, h1, h2]

theorem adjSorted_insertItem (k : List Char) (v : PyVal) :
    ∀ t : StyleItems, adjSortedItems t = true → adjSortedItems (insertItem k v t) = true
  | .nil => by intro _; rfl
  | .cons k2 v2 rest => by
    intro ht
    simp only [insertItem]
    by_cases h : strLE k k2 = true
    · rw [if_pos h]
      simp [adjSortedItems, h, ht]
    · rw [if_neg h]
      have hk2k := strLE_of_not_strLE k k2 (by simpa using h)
      cases rest with
      | nil => simp [insertItem, adjSortedItems, hk2k]
      | cons k3 v3 rest2 =>
        obtain ⟨h23, htail⟩ := adjSorted_head k2 v2 k3 v3 rest2 ht
        have hrec := adjSorted_insertItem k v (.cons k3 v3 rest2) htail
        simp only [insertItem] at hrec ⊢
        by_cases h3 : strLE k k3 = true
        · rw [if_pos h3] at hrec ⊢
          simp only [adjSortedItems, Bool.and_eq_true] at hrec ⊢
          exact ⟨hk2k, hrec⟩
        · rw [if_neg h3] at hrec ⊢
          simp only [adjSortedItems, Bool.and_eq_true] at hrec ⊢
          exact ⟨h23, hrec⟩

theorem adjSorted_sortStyleItems :
    ∀ s : StyleItems, adjSortedItems (sortStyleItems s) = true
  | .nil => rfl
  | .cons k v rest =>
    adjSorted_insertItem k v _ (adjSorted_sortStyleItems rest)

theorem canonicalItems_insertItem (k : List Char) (v : PyVal) :
    ∀ t : StyleItems, canonicalVal v = true → canonicalItems t = true →
      canonicalItems (insertItem k v t) = true
  | .nil => by
    intro hv _
    simp [insertItem, canonicalItems, hv]
  | .cons k2 v2 rest => by
    intro hv ht
    obtain ⟨hv2, hrest⟩ := canonicalItems_parts k2 v2 rest ht
    simp only [insertItem]
    by_cases h : strLE k k2 = true
    · rw [if_pos h]
      simp [canonicalItems, hv, hv2, hrest]
    · rw [if_neg h]
      have hrec := canonicalItems_insertItem k v rest hv hrest
      simp [canonicalItems, hv2, hrec]

theorem canonicalItems_sortStyleItems :
    ∀ s : StyleItems, canonicalItems s = true → canonicalItems (sortStyleItems s) = true
  | .nil => by intro _; rfl
  | .cons k v rest => by
    intro hs
    obtain ⟨hv, hrest⟩ := canonicalItems_parts k v rest hs
    simp only [sortStyleItems]
    exact canonicalItems_insertItem k v _ hv (canonicalItems_sortStyleItems rest hrest)

theorem canonical_canon (n : Nat) :
    (∀ v : PyVal, sizeOf v ≤ n → canonicalVal (canonVal v) = true) ∧
    (∀ s : StyleItems, sizeOf s ≤ n → canonicalItems (canonItems s) = true) := by
  induction n using Nat.strong_induction_on with
  | _ n ih =>
    constructor
    · intro v hv
      cases v with
      | vStyle s =>
        have hm : sizeOf s < n := by
          have := PyVal.vStyle.sizeOf_spec s
          omega
        simp only [canonVal, canonicalVal, Bool.and_eq_true]
        exact ⟨adjSorted_sortStyleItems _,
          canonicalItems_sortStyleItems _ ((ih (sizeOf s) hm).2 s (le_refl _))⟩
      | vBool b => rfl
      | vInt i => rfl
      | vStr s => rfl
      | vBytes b => rfl
    · intro s hsz
      cases s with
      | nil => rfl
      | cons k v rest =>
        have hmv : sizeOf v < n := by
          have := StyleItems.cons.sizeOf_spec k v rest
          omega
        have hmr : sizeOf rest < n := by
          have := StyleItems.cons.sizeOf_spec k v rest
          omega
        have h1 := (ih (sizeOf v) hmv).1 v (le_refl _)
        have h2 := (ih (sizeOf rest) hmr).2 rest (le_refl _)
        simp [canonItems, canonicalItems, h1, h2]

/-- C2 (amended).  For styles whose option names and string values avoid
the rendering delimiter characters (`{`, `}`, `,`, `:`, space) and whose
string values do not spell a boolean or a decimal integer literal, two
styles have the same normalized signature exactly when they have the same
option set with the same values, order-insensitively at each nesting
level (i.e. when their recursively key-sorted forms coincide). -/
theorem normrepr_eq_iff_canonStyle (A B : StyleItems)
    (hsA : saneItems A = true) (hsB : saneItems B = true) :
    normrepr A = normrepr B ↔ canonStyle A = canonStyle B := by
  constructor
  · intro h
    have hchain : renderVal (.vStyle (canonStyle A)) ++ ([] : List Char) =
        renderVal (.vStyle (canonStyle B)) ++ [] := by
      simp only [List.append_nil]
      show normrepr (canonStyle A) = normrepr (canonStyle B)
      rw [normrepr_canonStyle, normrepr_canonStyle, h]
    have hsA' : saneVal (.vStyle (canonStyle A)) = true := by
      simp only [saneVal]
      exact saneItems_sortStyleItems _ ((sane_canon (sizeOf A)).2 A (le_refl _) hsA)
    have hsB' : saneVal (.vStyle (canonStyle B)) = true := by
      simp only [saneVal]
      exact saneItems_sortStyleItems _ ((sane_canon (sizeOf B)).2 B (le_refl _) hsB)
    have hcA : canonicalVal (.vStyle (canonStyle A)) = true := by
      simp only [canonicalVal, Bool.and_eq_true]
      exact ⟨adjSorted_sortStyleItems _,
        canonicalItems_sortStyleItems _ ((canonical_canon (sizeOf A)).2 A (le_refl _))⟩
    have hcB : canonicalVal (.vStyle (canonStyle B)) = true := by
      simp only [canonicalVal, Bool.and_eq_true]
      exact ⟨adjSorted_sortStyleItems _,
        canonicalItems_sortStyleItems _ ((canonical_canon (sizeOf B)).2 B (le_refl _))⟩
    obtain ⟨hv, -⟩ := (renderInjAux (sizeOf (PyVal.vStyle (canonStyle A)))).1
      (.vStyle (canonStyle A)) (.vStyle (canonStyle B)) [] [] (le_refl _)
      hsA' hsB' hcA hcB (Or.inl rfl) (Or.inl rfl) hchain
    injection hv
  · intro h
    rw [← normrepr_canonStyle A, ← normrepr_canonStyle B, h]

/-- C2 witness: the amended equivalence applied to two concrete sane
styles that list the same options in different orders. -/
theorem normrepr_eq_iff_canonStyle_witness :
    (saneItems (.cons "b".data (.vInt 1) (.cons "a".data (.vBool true) .nil)) = true ∧
     saneItems (.cons "a".data (.vBool true) (.cons "b".data (.vInt 1) .nil)) = true) ∧
    (normrepr (.cons "b".data (.vInt 1) (.cons "a".data (.vBool true) .nil)) =
        normrepr (.cons "a".data (.vBool true) (.cons "b".data (.vInt 1) .nil)) ↔
      canonStyle (.cons "b".data (.vInt 1) (.cons "a".data (.vBool true) .nil)) =
        canonStyle (.cons "a".data (.vBool true) (.cons "b".data (.vInt 1) .nil))) :=
  ⟨⟨by decide, by decide⟩,
    normrepr_eq_iff_canonStyle
      (.cons "b".data (.vInt 1) (.cons "a".data (.vBool true) .nil))
      (.cons "a".data (.vBool true) (.cons "b".data (.vInt 1) .nil))
      (by decide) (by decide)⟩

/-- C2 counterexample: the styles `{a: {n: x}}` (a nested style under key
`a`) and `{a: "{n: x}"}` (a plain string under key `a`) have identical
normalized signatures, yet they do not have the same values for the
option `a`, so signature equality does not imply value equality for
arbitrary styles. -/
theorem normrepr_counterexample :
    normrepr (.cons ['a'] (.vStyle (.cons ['n'] (.vStr ['x']) .nil)) .nil) =
      normrepr (.cons ['a'] (.vStr ['{', 'n', ':', ' ', 'x', '}']) .nil) ∧
    PyVal.vStyle (.cons ['n'] (.vStr ['x']) .nil) ≠ PyVal.vStr ['{', 'n', ':', ' ', 'x', '}'] ∧
    canonStyle (.cons ['a'] (.vStyle (.cons ['n'] (.vStr ['x']) .nil)) .nil) ≠
      canonStyle (.cons ['a'] (.vStr ['{', 'n', ':', ' ', 'x', '}']) .nil) := by
  decide

/-! ### C5: the acceptance policy (`attempt_acceptible`)

Distances are Python tuples of ints compared lexicographically;
`distquality` drops the trailing attempt ordinal.  In `find_best_style`
a rejected attempt's option group is counted in the
`global_worse_options` counter (lines 5846-5848). -/

/-- Python `<` on int tuples/lists (lexicographic; a proper prefix is
smaller). -/
def pyListLt : List Int → List Int → Bool
  | [], [] => false
  | [], _ :: _ => true
  | _ :: _, [] => false
  | a :: as, b :: bs => if a < b then true else if b < a then false else pyListLt as bs

/-- Python `>` on int tuples (argument-swapped `<`). -/
def pyListGt (x y : List Int) : Bool := pyListLt y x

/-- Python `>=` on int tuples: first differing element compared with `>`,
a missing side decided by length. -/
def pyListGe : List Int → List Int → Bool
  | [], [] => true
  | [], _ :: _ => false
  | _ :: _, [] => true
  | a :: as, b :: bs => if b < a then true else if a < b then false else pyListGe as bs

/-- `distquality`: the distance without its last element (the attempt
ordinal). -/
def distquality (distance : List Int) : List Int := distance.dropLast

/-- `CodeFormatter.attempt_acceptible` from the source. -/
def attempt_acceptible (roundnr : Int) (prevdist newdist : List Int) : Bool :=
  if 3 ≤ roundnr ∧ pyListGt newdist prevdist = true then false
  else if 3 ≤ roundnr ∧ pyListGe newdist prevdist = true then false
  else true

/-- The per-attempt bookkeeping of `find_best_style` (lines 5846-5848):
when the attempt is not acceptable, its option group's normalized
signature is counted as worse. -/
def count_worse_option (roundnr : Int) (prevdist newdistance : List Int)
    (newoptions : StyleItems) (worse : List Char → Nat) : List Char → Nat :=
  if attempt_acceptible roundnr (distquality prevdist) (distquality newdistance) = true
  then worse
  else fun sig => if sig = normrepr newoptions then worse sig + 1 else worse sig

theorem pyListLt_asymm : ∀ x y : List Int, pyListLt x y = true → pyListLt y x = false
  | [], [] => by simp [pyListLt]
  | [], _ :: _ => by simp [pyListLt]
  | _ :: _, [] => by simp [pyListLt]
  | a :: as, b :: bs => by
    simp only [pyListLt]
    intro h
    by_cases hab : a < b
    · rw [if_neg (by omega), if_pos hab]
    · rw [if_neg hab] at h
      by_cases hba : b < a
      · rw [if_pos hba] at h
        exact absurd h (by simp)
      · rw [if_neg hba] at h
        rw [if_neg hba, if_neg hab]
        exact pyListLt_asymm as bs h

theorem pyListGe_eq_not_lt : ∀ x y : List Int, pyListGe x y = !pyListLt x y
  | [], [] => rfl
  | [], _ :: _ => rfl
  | _ :: _, [] => rfl
  | a :: as, b :: bs => by
    simp only [pyListGe, pyListLt]
    by_cases hab : a < b
    · rw [if_neg (by omega), if_pos hab, if_pos hab]
      rfl
    · by_cases hba : b < a
      · rw [if_pos hba, if_neg hab, if_pos hba]
        rfl
      · rw [if_neg hba, if_neg hab, if_neg hab, if_neg hba]
        exact pyListGe_eq_not_lt as bs

/-- C5.  The acceptance test accepts every attempt in rounds below 3 and
from round 3 onward accepts exactly the attempts whose new distance is
lexicographically strictly smaller than the parent's; a rejected
attempt's option group signature is counted as worse (and the counter is
untouched when the attempt is accepted). -/
theorem attempt_acceptible_spec (roundnr : Int) (prevdist newdistance : List Int)
    (newoptions : StyleItems) (worse : List Char → Nat) :
    (attempt_acceptible roundnr prevdist newdistance = true ↔
      (roundnr < 3 ∨ pyListLt newdistance prevdist = true)) ∧
    (count_worse_option roundnr prevdist newdistance newoptions worse
        (normrepr newoptions) =
      worse (normrepr newoptions) +
        (if roundnr < 3 ∨ pyListLt (distquality newdistance) (distquality prevdist) = true
         then 0 else 1)) := by
  have key : ∀ p n : List Int, (attempt_acceptible roundnr p n = true ↔
      (roundnr < 3 ∨ pyListLt n p = true)) := by
    intro p n
    unfold attempt_acceptible
    by_cases hr : 3 ≤ roundnr
    · by_cases hlt : pyListLt n p = true
      · have hge : pyListGe n p = false := by
          rw [pyListGe_eq_not_lt, hlt]
          rfl
        have hgt : pyListGt n p = false := by
          unfold pyListGt
          exact pyListLt_asymm n p hlt
        rw [if_neg (by simp [hgt]), if_neg (by simp [hge])]
        simp [hlt]
      · have hge : pyListGe n p = true := by
          rw [pyListGe_eq_not_lt]
          simp [Bool.not_eq_true] at hlt
          rw [hlt]
          rfl
        by_cases hgt : pyListGt n p = true
        · rw [if_pos ⟨hr, hgt⟩]
          constructor
          · intro hh
            exact absurd hh (by simp)
          · intro hh
            rcases hh with hh | hh
            · omega
            · exact absurd hh hlt
        · rw [if_neg (fun hh => hgt hh.2), if_pos ⟨hr, hge⟩]
          constructor
          · intro hh
            exact absurd hh (by simp)
          · intro hh
            rcases hh with hh | hh
            · omega
            · exact absurd hh hlt
    · rw [if_neg (fun hh => hr hh.1), if_neg (fun hh => hr hh.1)]
      simp only [true_iff]
      left
      omega
  refine ⟨key prevdist newdistance, ?_⟩
  unfold count_worse_option
  by_cases hacc : attempt_acceptible roundnr (distquality prevdist)
      (distquality newdistance) = true
  · rw [if_pos hacc]
    rw [if_pos ((key (distquality prevdist) (distquality newdistance)).mp hacc)]
    simp
  · rw [if_neg hacc]
    rw [if_neg (fun hh => hacc ((key (distquality prevdist)
        (distquality newdistance)).mpr hh))]
    simp

/-! ### C3: no duplicate evaluation in a run (`find_best_style`)

Lines 5752-5759: each round's derivations are filtered against the
`previous_attempts` signature set before formatting, and the set persists
over the rounds of one run (it is created once, before the loop).  The
derivations themselves are arbitrary here, which makes the invariant
independent of `gather_attempts`. -/

/-- `FormatStyleAttempt` from the source. -/
structure FormatStyleAttempt where
  formatstyle : StyleItems
  newoptions : StyleItems
  prevdist : List Int

/-- Normalized signature of an attempt's style. -/
def attemptSig (a : FormatStyleAttempt) : List Char := normrepr a.formatstyle

/-- The dedup filter of one round (the `for attempt in derivations`
loop): skip already-seen signatures, record fresh ones. -/
def dedupRound : List FormatStyleAttempt → List (List Char) →
    List FormatStyleAttempt × List (List Char)
  | [], prev => ([], prev)
  | a :: rest, prev =>
    if attemptSig a ∈ prev then dedupRound rest prev
    else
      let r := dedupRound rest (attemptSig a :: prev)
      (a :: r.1, r.2)

/-- A whole run: each round's derivations pass through the filter, the
signature set carried from round to round. -/
def runRounds : List (List FormatStyleAttempt) → List (List Char) →
    List FormatStyleAttempt × List (List Char)
  | [], prev => ([], prev)
  | round :: rest, prev =>
    let r1 := dedupRound round prev
    let r2 := runRounds rest r1.2
    (r1.1 ++ r2.1, r2.2)

/-- All attempts submitted for formatting over one run. -/
def submittedAttempts (rounds : List (List FormatStyleAttempt)) :
    List FormatStyleAttempt :=
  (runRounds rounds []).1

theorem dedupRound_spec :
    ∀ (round : List FormatStyleAttempt) (prev : List (List Char)),
      ((dedupRound round prev).1.map attemptSig).Nodup ∧
      (∀ s ∈ (dedupRound round prev).1.map attemptSig, s ∉ prev) ∧
      (∀ s, s ∈ (dedupRound round prev).2 ↔
        s ∈ prev ∨ s ∈ (dedupRound round prev).1.map attemptSig)
  | [], prev => by
    refine ⟨by simp [dedupRound], by simp [dedupRound], ?_⟩
    intro s
    simp [dedupRound]
  | a :: rest, prev => by
    by_cases h : attemptSig a ∈ prev
    · simp only [dedupRound, if_pos h]
      exact dedupRound_spec rest prev
    · obtain ⟨ih1, ih2, ih3⟩ := dedupRound_spec rest (attemptSig a :: prev)
      simp only [dedupRound, if_neg h, List.map_cons]
      refine ⟨?_, ?_, ?_⟩
      · rw [List.nodup_cons]
        refine ⟨?_, ih1⟩
        intro hmem
        exact (ih2 _ hmem) (List.mem_cons_self _ _)
      · intro s hs
        rcases List.mem_cons.mp hs with rfl | hs2
        · exact h
        · intro hp
          exact (ih2 s hs2) (List.mem_cons_of_mem _ hp)
      · intro s
        rw [ih3 s]
        constructor
        · intro hh
          rcases hh with hh | hh
          · rcases List.mem_cons.mp hh with rfl | hh2
            · exact Or.inr (List.mem_cons_self _ _)
            · exact Or.inl hh2
          · exact Or.inr (List.mem_cons_of_mem _ hh)
        · intro hh
          rcases hh with hh | hh
          · exact Or.inl (List.mem_cons_of_mem _ hh)
          · rcases List.mem_cons.mp hh with rfl | hh2
            · exact Or.inl (List.mem_cons_self _ _)
            · exact Or.inr hh2

theorem runRounds_spec :
    ∀ (rounds : List (List FormatStyleAttempt)) (prev : List (List Char)),
      ((runRounds rounds prev).1.map attemptSig).Nodup ∧
      (∀ s ∈ (runRounds rounds prev).1.map attemptSig, s ∉ prev)
  | [], prev => by simp [runRounds]
  | round :: rest, prev => by
    obtain ⟨d1, d2, d3⟩ := dedupRound_spec round prev
    obtain ⟨r1, r2⟩ := runRounds_spec rest (dedupRound round prev).2
    simp only [runRounds, List.map_append]
    constructor
    · apply List.Nodup.append d1 r1
      intro s hs1 hs2
      exact (r2 s hs2) ((d3 s).mpr (Or.inr hs1))
    · intro s hs
      rcases List.mem_append.mp hs with hs | hs
      · exact d2 s hs
      · intro hp
        exact (r2 s hs) ((d3 s).mpr (Or.inl hp))

/-- C3.  Whatever derivations each round produces, no two attempts that a
single run submits for formatting share a normalized style signature:
once a signature is recorded in `previous_attempts`, all later
derivations carrying it are skipped before formatting. -/
theorem no_duplicate_evaluation (rounds : List (List FormatStyleAttempt)) :
    ((submittedAttempts rounds).map attemptSig).Nodup :=
  (runRounds_spec rounds []).1

/-! ### C7: `ClangFormatter.variants_for`

An `Option` in the source is the tuple `(name, type, configs, nested?)`;
`stylevariant` builds a one-option style through `style_make`, which
normalizes the value with `typeconv` (so `typeconv` is applied twice);
`extopt.update(addopt)` is a plain dict update.  `variants_for` recurses
through nested style definitions; the recursion is driven here by a fuel
argument (the source recursion terminates because style definitions are
finite trees, and on inputs without nesting the fuel is never consumed). -/

/-- A formatter option `(name, type, configs, nestedstyle)`. -/
inductive FOption : Type where
  | mk : List Char → List Char → List PyVal → Option (List FOption) → FOption

/-- Dict assignment `style[k] = v` (an existing key keeps its place, a
new key is appended). -/
def setItem (s : StyleItems) (k : List Char) (v : PyVal) : StyleItems :=
  match s with
  | .nil => .cons k v .nil
  | .cons k0 v0 rest => if k0 = k then .cons k0 v rest else .cons k0 v0 (setItem rest k v)

/-- `d.get(k)`. -/
def styleGet : StyleItems → List Char → Option PyVal
  | .nil, _ => none
  | .cons k0 v rest, k => if k0 = k then some v else styleGet rest k

/-- Python `dict.update`. -/
def dictUpdate (s : StyleItems) : StyleItems → StyleItems
  | .nil => s
  | .cons k v rest => dictUpdate (setItem s k v) rest

/-- `set_option`: store the `typeconv`-normalized value. -/
def setOption (py2 : Bool) (style : StyleItems) (optionname : List Char)
    (optionvalue : PyVal) : StyleItems :=
  setItem style optionname (typeconv py2 optionvalue)

/-- `stylevariant(optionname, value) = style_make({optionname: typeconv(value)})`;
`style_make` runs each value through `set_option`, hence the double
`typeconv`. -/
def stylevariant (py2 : Bool) (optionname : List Char) (value : PyVal) : StyleItems :=
  setItem .nil optionname (typeconv py2 (typeconv py2 value))

/-- `stylevariants`. -/
def stylevariants (py2 : Bool) (optionname : List Char) (values : List PyVal) :
    List StyleItems :=
  values.map (stylevariant py2 optionname)

/-- `inclusiverange(start, stop) = range(start, stop + 1)`. -/
def inclusiverange (start stop : Int) : List Int :=
  (List.range (stop + 1 - start).toNat).map (fun i => start + Int.ofNat i)

/-- `column_limit_candidates = sorted({0} ∪ {79..120})` (lines 1480-1484
with `LOWER_COLUMN_LIMIT = 79`, `UPPER_COLUMN_LIMIT = 120`); the values
are pairwise distinct and `0` sorts first. -/
def column_limit_candidates : List Int :=
  0 :: inclusiverange 79 120

/-- `ClangFormatter.additional_variants` (lines 2121-2132). -/
def additional_variants (py2 : Bool) (stylename : List Char) (configs : List PyVal)
    (unextendedname : PyVal) (extendoptions : List StyleItems) : List StyleItems :=
  configs.flatMap (fun c =>
    if c = unextendedname then [stylevariant py2 stylename c]
    else extendoptions.map (fun addopt => dictUpdate (stylevariant py2 stylename c) addopt))

/-- `ClangFormatter.variants_for` (lines 2134-2211), fuel-driven through
nested style definitions. -/
def variants_for (py2 : Bool) : Nat → Option FOption → List StyleItems
  | _, none => []
  | 0, some _ => []
  | fuel + 1, some (.mk stylename styletype configs nestedstyle) =>
    match nestedstyle with
    | some nestedopts =>
      nestedopts.flatMap (fun nopt =>
        (variants_for py2 fuel (some nopt)).map (fun nsv =>
          let sty := stylevariant py2 stylename (.vStyle nsv)
          if stylename = "BraceWrapping".data then
            setOption py2 sty "BreakBeforeBraces".data (.vStr "Custom".data)
          else sty))
    | none =>
      if stylename = "UseTab".data then
        additional_variants py2 stylename configs (.vStr "Never".data)
          ((inclusiverange 1 8).map (fun i => stylevariant py2 "TabWidth".data (.vInt i)))
      else if stylename = "BreakBeforeBraces".data then
        (stylevariants py2 stylename configs).filter
          (fun x => decide (styleGet x "BreakBeforeBraces".data ≠ some (.vStr "Custom".data)))
      else if configs ≠ [] then
        if stylename = "PointerAlignment".data then
          additional_variants py2 "DerivePointerAlignment".data
            [.vBool false, .vBool true] (.vBool true)
            (stylevariants py2 stylename configs)
        else stylevariants py2 stylename configs
      else if styletype = "bool".data then
        if stylename = "DisableFormat".data then stylevariants py2 stylename [.vBool false]
        else if stylename = "DerivePointerAlignment".data then []
        else stylevariants py2 stylename [.vBool true, .vBool false]
      else if styletype = "int".data then []
      else if styletype = "unsigned".data then
        if stylename = "ColumnLimit".data then
          stylevariants py2 stylename (column_limit_candidates.map .vInt)
        else if stylename = "TabWidth".data then
          stylevariants py2 stylename ((inclusiverange 1 8).map .vInt)
        else if stylename = "IndentWidth".data then
          stylevariants py2 stylename ((inclusiverange 0 8).map .vInt)
        else if List.isPrefixOf "Penalty".data stylename then []
        else stylevariants py2 stylename ((inclusiverange 0 2).map .vInt)
      else []

/-- The `UseTab` enum option as clang-format reports it. -/
def useTabOption : FOption :=
  .mk "UseTab".data "UseTabStyle".data
    [.vStr "Never".data, .vStr "ForIndentation".data, .vStr "Always".data] none

/-- The 17 candidate styles the claim lists, written out. -/
def useTabVariants : List StyleItems :=
  StyleItems.cons "UseTab".data (.vStr "Never".data) .nil ::
    ((inclusiverange 1 8).map (fun i =>
        StyleItems.cons "UseTab".data (.vStr "ForIndentation".data)
          (.cons "TabWidth".data (.vInt i) .nil)) ++
      (inclusiverange 1 8).map (fun i =>
        StyleItems.cons "UseTab".data (.vStr "Always".data)
          (.cons "TabWidth".data (.vInt i) .nil)))

/-- C7.  On the `UseTab` enum option `variants_for` returns exactly the
17 candidate styles `{UseTab: Never}`, `{UseTab: ForIndentation,
TabWidth: i}` for `i = 1..8` and `{UseTab: Always, TabWidth: i}` for
`i = 1..8`, on either interpreter branch and with any recursion budget
(the option has no nested style definition). -/
theorem variants_for_useTab (py2 : Bool) (fuel : Nat) :
    variants_for py2 (fuel + 1) (some useTabOption) = useTabVariants ∧
    useTabVariants.length = 17 := by
  constructor
  · cases py2 <;> rfl
  · rfl

/-! ### C9: the secondary distance component (`avg_linelength_diffs`)

`bytes.splitlines()` breaks on `\n`, `\r` and on `\r\n` counted once; a
nonempty trailing segment is a line.  `get_num_lines(filename)` is the
line count of the file's bytes and `len(get_cached_file(filename))` its
byte length, so a diff argument is a pair of byte strings here.  Python's
float arithmetic is modelled exactly over `ℚ`; `int()` truncates toward
zero. -/

/-- `bytes.splitlines()`: worker with the current line accumulated in
reverse. -/
def splitlinesGo (acc : List Char) : List Char → List (List Char)
  | [] => if acc = [] then [] else [acc.reverse]
  | '\n' :: rest => acc.reverse :: splitlinesGo [] rest
  | '\r' :: '\n' :: rest => acc.reverse :: splitlinesGo [] rest
  | '\r' :: rest => acc.reverse :: splitlinesGo [] rest
  | c :: rest => splitlinesGo (c :: acc) rest

/-- `data.splitlines()`. -/
def splitlines (data : List Char) : List (List Char) :=
  splitlinesGo [] data

/-- `count_content_lines(data) = len(list(data.splitlines()))` (line 3657). -/
def count_content_lines (data : List Char) : Nat :=
  (splitlines data).length

/-- Python `int()` on a float: truncation toward zero. -/
def pyTruncInt (q : ℚ) : Int :=
  if q < 0 then -Int.floor (-q) else Int.floor q

/-- `avg_linelength_diffs` (lines 6447-6464), with the reference file
already read to bytes. -/
def avg_linelength_diffs (diffargs : List (List Char × List Char)) : List Int :=
  diffargs.map (fun p =>
    let linelen1 := count_content_lines p.1
    let filelen1 := p.1.length
    let avg1 : ℚ := if 0 < linelen1 then (filelen1 : ℚ) / linelen1 else 0
    let linelen2 := count_content_lines p.2
    let filelen2 := p.2.length
    let avg2 : ℚ := if 0 < linelen2 then (filelen2 : ℚ) / linelen2 else 0
    pyTruncInt |10000 * (avg1 - avg2)|)

/-- The average line length in bytes per line, written from the spec's
words: 0 when the side has no lines. -/
def avgLinelength (content : List Char) : ℚ :=
  if count_content_lines content = 0 then 0
  else (content.length : ℚ) / count_content_lines content

/-- The claim's value for one diff argument: scaled by 10 000 and
*rounded* to an integer. -/
def specRoundedDiff (p : List Char × List Char) : Int :=
  round (10000 * |avgLinelength p.1 - avgLinelength p.2|)

/-- C9 counterexample.  A five-byte, three-line reference against empty
candidate output has average-line-length difference 5/3, so the scaled
value 50000/3 = 16666.67 rounds to 16667, but the code truncates the
float to 16666. -/
theorem avg_linelength_diffs_counterexample :
    avg_linelength_diffs [("a\nb\nc".data, [])] ≠
      [specRoundedDiff ("a\nb\nc".data, [])] := by
  have h1 : count_content_lines "a\nb\nc".data = 3 := rfl
  have h2 : count_content_lines ([] : List Char) = 0 := rfl
  have hlen : ("a\nb\nc".data).length = 5 := rfl
  have hL : avg_linelength_diffs [("a\nb\nc".data, [])] = [16666] := by
    simp only [avg_linelength_diffs, List.map, h1, h2, hlen, List.length_nil]
    norm_num [pyTruncInt]
    have habs : |(50000:ℚ)/3| = 50000/3 := abs_of_nonneg (by norm_num)
    rw [habs, if_neg (by norm_num : ¬((50000:ℚ)/3 < 0)), Int.floor_eq_iff]
    norm_num
  have hR : specRoundedDiff ("a\nb\nc".data, []) = 16667 := by
    simp only [specRoundedDiff, avgLinelength, h1, h2, hlen, List.length_nil]
    rw [round_eq]
    norm_num
    have habs : |(5:ℚ)/3| = 5/3 := abs_of_nonneg (by norm_num)
    rw [habs, Int.floor_eq_iff]
    norm_num
  rw [hL, hR]
  decide

theorem pyTruncInt_abs (q : ℚ) : pyTruncInt |q| = Int.floor |q| := by
  unfold pyTruncInt
  rw [if_neg]
  simp [abs_nonneg q]

/-- C9 (amended).  Each element of `avg_linelength_diffs` equals the
absolute difference of the two sides' average line lengths (bytes per
line, 0 when a side has no lines), scaled by 10 000 and truncated
(floored) to an integer — not rounded. -/
theorem avg_linelength_diffs_spec (diffargs : List (List Char × List Char)) :
    avg_linelength_diffs diffargs =
      diffargs.map (fun p => Int.floor (10000 * |avgLinelength p.1 - avgLinelength p.2|)) := by
  unfold avg_linelength_diffs
  apply List.map_congr_left
  intro p _
  have havg : ∀ content : List Char,
      (if 0 < count_content_lines content
       then ((content.length : ℚ)) / count_content_lines content else 0) =
        avgLinelength content := by
    intro content
    unfold avgLinelength
    by_cases h : count_content_lines content = 0
    · rw [if_pos h, if_neg (by omega)]
    · rw [if_neg h, if_pos (by omega)]
  simp only [havg]
  rw [pyTruncInt_abs, abs_mul]
  norm_num

/-! ### C4: `run_executables` / `iter_parallel` / `iter_parallel_report`

The runner (`call_popen` with the packaged call arguments) is the
function parameter `f`; a job's result is deterministic, and exceptions
are out of scope (the job functions used here return `ExeResult` values
for failures too).  `iter_parallel_report` either runs the jobs inline
(`CC_OFF`, at most one job, or no multiprocessing module) or submits all
jobs to a pool with `apply_async` and then pops the async results **in
submission order** (`async_results.pop(0)`); both pool flavours behave
alike.  `run_executables` asks the cache for all jobs up front with
`mget` (so the `cache.set` calls during the job iteration cannot affect
this run's output), splits cache hits `(idx, result)` from misses, and
re-merges by original index with `heapq.merge`; indices are pairwise
distinct, so the merge never compares the result components. -/

/-- Concurrency mode: `CC_OFF`, `CC_THREADS` or `CC_PROCESSES`. -/
inductive CCMode : Type where
  | off : CCMode
  | threads : CCMode
  | processes : CCMode

deriving instance DecidableEq for CCMode

/-- A pool ticket from `apply_async`: `get()` will produce the job's
result. -/
structure AsyncResult (α : Type) : Type where
  arg : α

/-- `[pool.apply_async(func, args, kwds) for args, kwargs in args_lists]`. -/
def applyAsyncAll {α : Type} (args_lists : List α) : List (AsyncResult α) :=
  args_lists.map (fun a => ⟨a⟩)

/-- The `while async_results: yield async_results.pop(0).get()` loop:
results are collected in submission order. -/
def drainPool {α β : Type} (f : α → β) : List (AsyncResult α) → List β
  | [] => []
  | r :: rest => f r.arg :: drainPool f rest

/-- `tracebackwrapper(func, args, kwargs) = func(*args, **kwargs)` (the
exception branch re-raises and is out of scope). -/
def tracebackwrapper {α β : Type} (f : α → β) (a : α) : β := f a

/-- `iter_parallel_report` (lines 980-1021). -/
def iter_parallel_report {α β : Type} (f : α → β) (args_lists : List α)
    (ccmode : CCMode) (hasMp : Bool) : List β :=
  if ccmode = .off ∨ args_lists.length ≤ 1 ∨ hasMp = false then
    args_lists.map f
  else
    drainPool f (applyAsyncAll args_lists)

/-- `iter_parallel` (lines 1023-1056): wraps the job function with
`tracebackwrapper` unless running inline. -/
def iter_parallel {α β : Type} (f : α → β) (args_lists : List α)
    (ccmode : CCMode) (hasMp : Bool) : List β :=
  if args_lists.isEmpty then []
  else if ccmode = .off then iter_parallel_report f args_lists ccmode hasMp
  else iter_parallel_report (tracebackwrapper f) args_lists ccmode hasMp

/-- The cache partition of `run_executables` (lines 4284-4301):
`(cachedresults, jobs, jobindices)` for the calls numbered from `idx`. -/
def partitionCache {α β : Type} (c : α → Option β) : Nat → List α →
    List (Nat × β) × List α × List Nat
  | _, [] => ([], [], [])
  | idx, ec :: rest =>
    match c ec with
    | some v =>
      ((idx, v) :: (partitionCache c (idx + 1) rest).1,
       (partitionCache c (idx + 1) rest).2.1,
       (partitionCache c (idx + 1) rest).2.2)
    | none =>
      ((partitionCache c (idx + 1) rest).1,
       ec :: (partitionCache c (idx + 1) rest).2.1,
       idx :: (partitionCache c (idx + 1) rest).2.2)

/-- `heapq.merge` on index-keyed pairs, fuel-driven (the fuel is the
total length, which the top-level wrapper supplies). -/
def mergeIdxAux {β : Type} : Nat → List (Nat × β) → List (Nat × β) → List (Nat × β)
  | 0, xs, ys => xs ++ ys
  | _ + 1, [], ys => ys
  | _ + 1, xs, [] => xs
  | fuel + 1, x :: xs, y :: ys =>
    if x.1 ≤ y.1 then x :: mergeIdxAux fuel xs (y :: ys)
    else y :: mergeIdxAux fuel (x :: xs) ys

/-- `heapq.merge` of two index-sorted lists (ties take the left
iterator first, as `heapq.merge` does; indices are distinct here). -/
def mergeIdx {β : Type} (xs ys : List (Nat × β)) : List (Nat × β) :=
  mergeIdxAux (xs.length + ys.length) xs ys

/-- `run_executables` (lines 4261-4315): split the calls into cache hits
and misses, run the misses through `iter_parallel`, merge back by
original index and yield the result components. -/
def run_executables {α β : Type} (f : α → β) (cache : Option (α → Option β))
    (ccmode : CCMode) (hasMp : Bool) (execalls : List α) : List β :=
  match cache with
  | none =>
    (mergeIdx [] ((List.range execalls.length).zip
        (iter_parallel f execalls ccmode hasMp))).map (fun p => p.2)
  | some c =>
    (mergeIdx (partitionCache c 0 execalls).1
        ((partitionCache c 0 execalls).2.2.zip
          (iter_parallel f (partitionCache c 0 execalls).2.1 ccmode hasMp))).map
      (fun p => p.2)

/-- `idx, value` enumeration from a start index. -/
def enumFrom {α : Type} : Nat → List α → List (Nat × α)
  | _, [] => []
  | n, a :: rest => (n, a) :: enumFrom (n + 1) rest

theorem drainPool_applyAsyncAll {α β : Type} (f : α → β) :
    ∀ args_lists : List α, drainPool f (applyAsyncAll args_lists) = args_lists.map f
  | [] => rfl
  | a :: rest => by
    simp only [applyAsyncAll, List.map, drainPool]
    rw [show List.map (fun a => (⟨a⟩ : AsyncResult α)) rest = applyAsyncAll rest from rfl,
      drainPool_applyAsyncAll f rest]

theorem iter_parallel_report_eq {α β : Type} (f : α → β) (args_lists : List α)
    (ccmode : CCMode) (hasMp : Bool) :
    iter_parallel_report f args_lists ccmode hasMp = args_lists.map f := by
  unfold iter_parallel_report
  by_cases h : ccmode = CCMode.off ∨ args_lists.length ≤ 1 ∨ hasMp = false
  · rw [if_pos h]
  · rw [if_neg h, drainPool_applyAsyncAll]

theorem iter_parallel_eq {α β : Type} (f : α → β) (args_lists : List α)
    (ccmode : CCMode) (hasMp : Bool) :
    iter_parallel f args_lists ccmode hasMp = args_lists.map f := by
  unfold iter_parallel
  by_cases he : args_lists.isEmpty
  · rw [if_pos he]
    rw [List.isEmpty_iff] at he
    rw [he]
    rfl
  · rw [if_neg he]
    by_cases hm : ccmode = CCMode.off
    · rw [if_pos hm, iter_parallel_report_eq]
    · rw [if_neg hm, iter_parallel_report_eq]
      rfl

theorem mergeIdxAux_nil_left {β : Type} : ∀ (fuel : Nat) (ys : List (Nat × β)),
    mergeIdxAux fuel [] ys = ys
  | 0, ys => by simp [mergeIdxAux]
  | _ + 1, [] => by simp [mergeIdxAux]
  | _ + 1, _ :: _ => by simp [mergeIdxAux]

theorem mergeIdxAux_nil_right {β : Type} : ∀ (fuel : Nat) (xs : List (Nat × β)),
    mergeIdxAux fuel xs [] = xs
  | 0, xs => by simp [mergeIdxAux]
  | _ + 1, [] => by simp [mergeIdxAux]
  | _ + 1, _ :: _ => by simp [mergeIdxAux]

theorem mergeIdxAux_cons_left {β : Type} (fuel : Nat) (x : Nat × β)
    (xs ys : List (Nat × β)) (h : ∀ y ∈ ys, x.1 ≤ y.1) :
    mergeIdxAux (fuel + 1) (x :: xs) ys = x :: mergeIdxAux fuel xs ys := by
  cases ys with
  | nil => rw [mergeIdxAux_nil_right, mergeIdxAux_nil_right]
  | cons y ys =>
    simp only [mergeIdxAux]
    rw [if_pos (h y (List.mem_cons_self y ys))]

theorem mergeIdxAux_cons_right {β : Type} (fuel : Nat) (y : Nat × β)
    (xs ys : List (Nat × β)) (h : ∀ x ∈ xs, y.1 < x.1) :
    mergeIdxAux (fuel + 1) xs (y :: ys) = y :: mergeIdxAux fuel xs ys := by
  cases xs with
  | nil => rw [mergeIdxAux_nil_left, mergeIdxAux_nil_left]
  | cons x xs =>
    simp only [mergeIdxAux]
    rw [if_neg (by have := h x (List.mem_cons_self x xs); omega)]

theorem partitionCache_bounds {α β : Type} (c : α → Option β) :
    ∀ (execalls : List α) (n : Nat),
      (∀ p ∈ (partitionCache c n execalls).1, n ≤ p.1) ∧
      (∀ i ∈ (partitionCache c n execalls).2.2, n ≤ i)
  | [], n => by simp [partitionCache]
  | ec :: rest, n => by
    obtain ⟨ih1, ih2⟩ := partitionCache_bounds c rest (n + 1)
    cases hce : c ec with
    | some v =>
      simp only [partitionCache, hce]
      constructor
      · intro p hp
        rcases List.mem_cons.mp hp with rfl | hp2
        · exact Nat.le_refl n
        · exact Nat.le_of_succ_le (ih1 p hp2)
      · intro i hi
        exact Nat.le_of_succ_le (ih2 i hi)
    | none =>
      simp only [partitionCache, hce]
      constructor
      · intro p hp
        exact Nat.le_of_succ_le (ih1 p hp)
      · intro i hi
        rcases List.mem_cons.mp hi with rfl | hi2
        · exact Nat.le_refl i
        · exact Nat.le_of_succ_le (ih2 i hi2)

theorem partitionCache_merge {α β : Type} (c : α → Option β) (f : α → β)
    (hc : ∀ ec v, c ec = some v → v = f ec) :
    ∀ (execalls : List α) (n : Nat),
      mergeIdx (partitionCache c n execalls).1
          ((partitionCache c n execalls).2.2.zip
            ((partitionCache c n execalls).2.1.map f)) =
        (enumFrom n execalls).map (fun p => (p.1, f p.2))
  | [], n => by simp [partitionCache, enumFrom, mergeIdx, mergeIdxAux]
  | ec :: rest, n => by
    have ih := partitionCache_merge c f hc rest (n + 1)
    obtain ⟨hb1, hb2⟩ := partitionCache_bounds c rest (n + 1)
    cases hce : c ec with
    | some v =>
      have hv : v = f ec := hc ec v hce
      simp only [partitionCache, hce, enumFrom, List.map]
      rw [show mergeIdx ((n, v) :: (partitionCache c (n + 1) rest).1)
            ((partitionCache c (n + 1) rest).2.2.zip
              ((partitionCache c (n + 1) rest).2.1.map f)) =
          mergeIdxAux (((partitionCache c (n + 1) rest).1.length +
            ((partitionCache c (n + 1) rest).2.2.zip
              ((partitionCache c (n + 1) rest).2.1.map f)).length) + 1)
            ((n, v) :: (partitionCache c (n + 1) rest).1)
            ((partitionCache c (n + 1) rest).2.2.zip
              ((partitionCache c (n + 1) rest).2.1.map f)) from by
        unfold mergeIdx
        rw [List.length_cons]
        rw [Nat.succ_add]]
      rw [mergeIdxAux_cons_left]
      · rw [show mergeIdxAux ((partitionCache c (n + 1) rest).1.length +
              ((partitionCache c (n + 1) rest).2.2.zip
                ((partitionCache c (n + 1) rest).2.1.map f)).length)
              ((partitionCache c (n + 1) rest).1)
              ((partitionCache c (n + 1) rest).2.2.zip
                ((partitionCache c (n + 1) rest).2.1.map f)) =
            mergeIdx ((partitionCache c (n + 1) rest).1)
              ((partitionCache c (n + 1) rest).2.2.zip
                ((partitionCache c (n + 1) rest).2.1.map f)) from rfl]
        rw [ih, hv]
      · intro y hy
        obtain ⟨a, b⟩ := y
        have := (List.of_mem_zip hy).1
        have := hb2 a this
        omega
    | none =>
      simp only [partitionCache, hce, enumFrom, List.map, List.zip_cons_cons]
      rw [show mergeIdx ((partitionCache c (n + 1) rest).1)
            ((n, f ec) :: (partitionCache c (n + 1) rest).2.2.zip
              ((partitionCache c (n + 1) rest).2.1.map f)) =
          mergeIdxAux (((partitionCache c (n + 1) rest).1.length +
            ((partitionCache c (n + 1) rest).2.2.zip
              ((partitionCache c (n + 1) rest).2.1.map f)).length) + 1)
            ((partitionCache c (n + 1) rest).1)
            ((n, f ec) :: (partitionCache c (n + 1) rest).2.2.zip
              ((partitionCache c (n + 1) rest).2.1.map f)) from by
        unfold mergeIdx
        rw [List.length_cons, Nat.add_succ]]
      rw [mergeIdxAux_cons_right]
      · rw [show mergeIdxAux ((partitionCache c (n + 1) rest).1.length +
              ((partitionCache c (n + 1) rest).2.2.zip
                ((partitionCache c (n + 1) rest).2.1.map f)).length)
              ((partitionCache c (n + 1) rest).1)
              ((partitionCache c (n + 1) rest).2.2.zip
                ((partitionCache c (n + 1) rest).2.1.map f)) =
            mergeIdx ((partitionCache c (n + 1) rest).1)
              ((partitionCache c (n + 1) rest).2.2.zip
                ((partitionCache c (n + 1) rest).2.1.map f)) from rfl]
        rw [ih]
      · intro x hx
        have := hb1 x hx
        omega

theorem enumFrom_map_snd {α β : Type} (f : α → β) :
    ∀ (l : List α) (n : Nat),
      ((enumFrom n l).map (fun p => (p.1, f p.2))).map (fun p => p.2) = l.map f
  | [], _ => rfl
  | a :: rest, n => by
    simp only [enumFrom, List.map]
    rw [enumFrom_map_snd f rest (n + 1)]

theorem map_snd_zip_eq {γ : Type} : ∀ (l1 : List Nat) (l2 : List γ),
    l1.length = l2.length → (l1.zip l2).map (fun p => p.2) = l2
  | [], [], _ => rfl
  | [], _ :: _, h => absurd h (by simp)
  | _ :: _, [], h => absurd h (by simp)
  | a :: l1, b :: l2, h => by
    simp only [List.zip_cons_cons, List.map]
    rw [show List.zipWith Prod.mk l1 l2 = l1.zip l2 from rfl,
      map_snd_zip_eq l1 l2 (by simpa using h)]

/-- C4.  Provided every cached value is the job function's result for
its call (the cache stores the runner's own packed results), the
dispatcher yields exactly one result per job in submission order, equal
element-wise to inline execution of all jobs — for every concurrency
mode, with or without multiprocessing, and for every partition into
cache hits and misses. -/
theorem run_executables_in_order {α β : Type} (f : α → β)
    (cache : Option (α → Option β)) (ccmode : CCMode) (hasMp : Bool)
    (execalls : List α)
    (hc : ∀ oc, cache = some oc → ∀ ec v, oc ec = some v → v = f ec) :
    run_executables f cache ccmode hasMp execalls = execalls.map f := by
  cases cache with
  | none =>
    simp only [run_executables]
    rw [iter_parallel_eq, show mergeIdx ([] : List (Nat × β))
        ((List.range execalls.length).zip (execalls.map f)) =
      (List.range execalls.length).zip (execalls.map f) from mergeIdxAux_nil_left _ _]
    exact map_snd_zip_eq _ _ (by simp)
  | some c =>
    simp only [run_executables]
    rw [iter_parallel_eq, partitionCache_merge c f (hc c rfl), enumFrom_map_snd]

/-- C4 witness: a three-call list with one cache hit at index 1. -/
theorem run_executables_in_order_witness :
    run_executables (fun b : Bool => !b)
        (some (fun b : Bool => if b then some false else none))
        CCMode.processes true [false, true, false] =
      [false, true, false].map (fun b : Bool => !b) :=
  run_executables_in_order (fun b : Bool => !b)
    (some (fun b : Bool => if b then some false else none))
    CCMode.processes true [false, true, false]
    (by
      intro oc h ec v hv
      rw [Option.some.injEq] at h
      rw [← h] at hv
      cases ec
      · simp at hv
      · simp at hv
        simp [hv])

/-! ### C8: `deep_update` / `copy_with_optgroup`

`deep_update` mutates its first argument in place, and the `KeyError`
branch stores the group's nested dict **by reference**;
`copy_with_optgroup` deep-copies the parent first.  Mutation is modelled
with an explicit store: dicts live at numeric addresses, a value is a
scalar or a reference.  `copy.deepcopy` is modelled without its memo
dictionary (per-call sharing only matters for DAG-shaped styles, which
the program never builds — its styles come from `style_make` and YAML
parsing and are trees).  A recursive `deep_update` call on a scalar
parent raises `TypeError` unless the group dict is empty (then the loop
body never runs), so the embedding returns `none` exactly there. -/

/-- A Python value in the store: a scalar or a reference to a dict. -/
inductive HVal : Type where
  | hBool : Bool → HVal
  | hInt : Int → HVal
  | hStr : List Char → HVal
  | hRef : Nat → HVal

deriving instance DecidableEq for HVal

/-- The entries of one dict, in insertion order. -/
abbrev Entries : Type := List (List Char × HVal)

/-- The object store: dict contents by address, plus the next fresh
address. -/
structure Store : Type where
  mem : List (Nat × Entries)
  next : Nat

deriving instance DecidableEq for Store

/-- First entry for an address. -/
def lookupMem : List (Nat × Entries) → Nat → Option Entries
  | [], _ => none
  | p :: rest, a => if p.1 = a then some p.2 else lookupMem rest a

/-- The dict at an address. -/
def lookupA (st : Store) (a : Nat) : Option Entries :=
  lookupMem st.mem a

/-- Replace the dict at an address (appends when absent; only used on
present addresses). -/
def setMem : List (Nat × Entries) → Nat → Entries → List (Nat × Entries)
  | [], a, e => [(a, e)]
  | p :: rest, a, e => if p.1 = a then (a, e) :: rest else p :: setMem rest a e

/-- In-place dict replacement. -/
def setA (st : Store) (a : Nat) (e : Entries) : Store :=
  ⟨setMem st.mem a e, st.next⟩

/-- Allocate a fresh dict. -/
def allocA (st : Store) (e : Entries) : Store :=
  ⟨(st.next, e) :: st.mem, st.next + 1⟩

/-- `d[k]` as a lookup (`KeyError` is `none`). -/
def dictGetH : Entries → List Char → Option HVal
  | [], _ => none
  | e :: rest, k => if e.1 = k then some e.2 else dictGetH rest k

/-- `d[k] = v`: an existing key keeps its position, a new key is
appended. -/
def dictSetH : Entries → List Char → HVal → Entries
  | [], k, v => [(k, v)]
  | e :: rest, k, v => if e.1 = k then (k, v) :: rest else e :: dictSetH rest k v

/-- The entry loop of `copy.deepcopy` over one dict's items, with the
dict copier for the next depth passed in. -/
def deepcopyEntriesWith (copyDict : Store → Nat → Option (Store × Nat)) :
    Store → Entries → Option (Store × Entries)
  | st, [] => some (st, [])
  | st, (k, v) :: rest =>
    match v with
    | .hRef b =>
      match copyDict st b with
      | none => none
      | some (st1, b2) =>
        match deepcopyEntriesWith copyDict st1 rest with
        | none => none
        | some (st2, rest2) => some (st2, (k, .hRef b2) :: rest2)
    | v =>
      match deepcopyEntriesWith copyDict st rest with
      | none => none
      | some (st2, rest2) => some (st2, (k, v) :: rest2)

/-- `copy.deepcopy` of the dict at an address (no memo: the styles this
program builds are trees).  The copy of each entry is allocated before
its parent, so fresh addresses grow child-to-parent. -/
def deepcopyDict : Nat → Store → Nat → Option (Store × Nat)
  | 0, _, _ => none
  | fuel + 1, st, a =>
    match lookupA st a with
    | none => none
    | some entries =>
      match deepcopyEntriesWith (deepcopyDict fuel) st entries with
      | none => none
      | some (st1, entries2) => some (allocA st1 entries2, st1.next)

/-- The `for optionname, value in optiongroup.items()` loop of
`deep_update` (lines 4378-4386), with the recursive call passed in.  A
dict-valued entry first tries `parentstyle[optionname]` (`TypeError` on
a scalar parent is `none`) and recurses, grafting the group's dict by
reference on `KeyError`; any other value is assigned, again `TypeError`
on a scalar parent. -/
def duEntriesWith (du : HVal → Nat → Store → Option Store) (parent : HVal) :
    Store → Entries → Option Store
  | st, [] => some st
  | st, (k, v) :: rest =>
    match v with
    | .hRef b =>
      match parent with
      | .hRef pa =>
        match lookupA st pa with
        | none => none
        | some pentries =>
          match dictGetH pentries k with
          | some pv =>
            match du pv b st with
            | none => none
            | some st2 => duEntriesWith du parent st2 rest
          | none =>
            duEntriesWith du parent (setA st pa (dictSetH pentries k (.hRef b))) rest
      | _ => none
    | v =>
      match parent with
      | .hRef pa =>
        match lookupA st pa with
        | none => none
        | some pentries =>
          duEntriesWith du parent (setA st pa (dictSetH pentries k v)) rest
      | _ => none

/-- `deep_update(parentstyle, optiongroup)` (lines 4374-4387), fuel for
the nesting depth.  The group is always a dict (address `ga`); the
parent may be any value, as in the recursive calls of the source. -/
def deep_update : Nat → Store → HVal → Nat → Option Store
  | 0, _, _, _ => none
  | fuel + 1, st, parent, ga =>
    match lookupA st ga with
    | none => none
    | some gentries =>
      duEntriesWith (fun pv b st2 => deep_update fuel st2 pv b) parent st gentries

/-- `copy_with_optgroup(style, optgroup) =
deep_update(Style(copy.deepcopy(style)), optgroup)` (lines 4390-4393),
returning the new style's address. -/
def copy_with_optgroup (fuel : Nat) (st : Store) (sa ga : Nat) :
    Option (Store × Nat) :=
  match deepcopyDict fuel st sa with
  | none => none
  | some (st1, c) =>
    match deep_update fuel st1 (.hRef c) ga with
    | none => none
    | some st2 => some (st2, c)

/-- Every dict address lies below `next`. -/
def boundedStore (st : Store) : Bool :=
  st.mem.all (fun p => decide (p.1 < st.next))

/-- `true` when a reference points below `N` (scalars pass). -/
def refBelow (N : Nat) : HVal → Bool
  | .hRef b => decide (b < N)
  | _ => true

/-- Dicts below `N` only reference dicts below `N`: the pre-existing
region is closed. -/
def regionClosed (st : Store) (N : Nat) : Bool :=
  st.mem.all (fun p => if p.1 < N then p.2.all (fun e => refBelow N e.2) else true)

/-- Every dict's keys are pairwise distinct (Python dicts). -/
def storeKeysNodup (st : Store) : Bool :=
  st.mem.all (fun p => decide (p.2.map Prod.fst).Nodup)

theorem lookupMem_mem : ∀ (mem : List (Nat × Entries)) (a : Nat) (e : Entries),
    lookupMem mem a = some e → (a, e) ∈ mem
  | [], _, _, h => by simp [lookupMem] at h
  | p :: rest, a, e, h => by
    simp only [lookupMem] at h
    by_cases hp : p.1 = a
    · rw [if_pos hp] at h
      rw [Option.some.injEq] at h
      exact List.mem_cons.mpr (Or.inl (by rw [← hp, ← h]))
    · rw [if_neg hp] at h
      exact List.mem_cons_of_mem p (lookupMem_mem rest a e h)

theorem lookupMem_setMem_self : ∀ (mem : List (Nat × Entries)) (a : Nat) (e : Entries),
    lookupMem (setMem mem a e) a = some e
  | [], a, e => by simp [setMem, lookupMem]
  | p :: rest, a, e => by
    simp only [setMem]
    by_cases hp : p.1 = a
    · rw [if_pos hp]
      simp [lookupMem]
    · rw [if_neg hp]
      simp only [lookupMem, if_neg hp]
      exact lookupMem_setMem_self rest a e

theorem lookupMem_setMem_ne : ∀ (mem : List (Nat × Entries)) (a : Nat) (e : Entries)
    (b : Nat), b ≠ a → lookupMem (setMem mem a e) b = lookupMem mem b
  | [], a, e, b, h => by
    simp only [setMem, lookupMem]
    rw [if_neg (fun hh => h hh.symm)]
  | p :: rest, a, e, b, h => by
    simp only [setMem]
    by_cases hp : p.1 = a
    · rw [if_pos hp]
      simp only [lookupMem]
      rw [if_neg (fun hh : a = b => h hh.symm), if_neg (by rw [hp]; exact fun hh => h hh.symm)]
    · rw [if_neg hp]
      simp only [lookupMem]
      by_cases hpb : p.1 = b
      · rw [if_pos hpb, if_pos hpb]
      · rw [if_neg hpb, if_neg hpb]
        exact lookupMem_setMem_ne rest a e b h

theorem setMem_subset : ∀ (mem : List (Nat × Entries)) (a : Nat) (e : Entries)
    (q : Nat × Entries), q ∈ setMem mem a e → q = (a, e) ∨ q ∈ mem
  | [], a, e, q, h => by
    simp only [setMem] at h
    rcases List.mem_singleton.mp h with rfl
    exact Or.inl rfl
  | p :: rest, a, e, q, h => by
    simp only [setMem] at h
    by_cases hp : p.1 = a
    · rw [if_pos hp] at h
      rcases List.mem_cons.mp h with rfl | h2
      · exact Or.inl rfl
      · exact Or.inr (List.mem_cons_of_mem p h2)
    · rw [if_neg hp] at h
      rcases List.mem_cons.mp h with rfl | h2
      · exact Or.inr (List.mem_cons_self _ _)
      · rcases setMem_subset rest a e q h2 with h3 | h3
        · exact Or.inl h3
        · exact Or.inr (List.mem_cons_of_mem p h3)

theorem lookupA_setA_self (st : Store) (a : Nat) (e : Entries) :
    lookupA (setA st a e) a = some e :=
  lookupMem_setMem_self st.mem a e

theorem lookupA_setA_ne (st : Store) (a : Nat) (e : Entries) (b : Nat) (h : b ≠ a) :
    lookupA (setA st a e) b = lookupA st b :=
  lookupMem_setMem_ne st.mem a e b h

theorem lookupA_allocA_ne (st : Store) (e : Entries) (b : Nat) (h : b ≠ st.next) :
    lookupA (allocA st e) b = lookupA st b := by
  simp only [lookupA, allocA, lookupMem]
  rw [if_neg (fun hh => h hh.symm)]

theorem boundedStore_spec (st : Store) :
    boundedStore st = true ↔ ∀ p ∈ st.mem, p.1 < st.next := by
  simp only [boundedStore, List.all_eq_true, decide_eq_true_eq]

theorem regionClosed_spec (st : Store) (N : Nat) :
    regionClosed st N = true ↔
      ∀ p ∈ st.mem, p.1 < N → ∀ e ∈ p.2, refBelow N e.2 = true := by
  simp only [regionClosed, List.all_eq_true]
  constructor
  · intro h p hp hlt e he
    have := h p hp
    rw [if_pos hlt] at this
    rw [List.all_eq_true] at this
    exact this e he
  · intro h p hp
    by_cases hlt : p.1 < N
    · rw [if_pos hlt, List.all_eq_true]
      exact h p hp hlt
    · rw [if_neg hlt]

theorem storeKeysNodup_spec (st : Store) :
    storeKeysNodup st = true ↔ ∀ p ∈ st.mem, (p.2.map Prod.fst).Nodup := by
  simp only [storeKeysNodup, List.all_eq_true, decide_eq_true_eq]

theorem bounded_of_lookup (st : Store) (a : Nat) (e : Entries)
    (hb : boundedStore st = true) (h : lookupA st a = some e) : a < st.next :=
  (boundedStore_spec st).mp hb (a, e) (lookupMem_mem st.mem a e h)

theorem region_of_lookup (st : Store) (N : Nat) (a : Nat) (e : Entries)
    (hr : regionClosed st N = true) (ha : a < N) (h : lookupA st a = some e) :
    ∀ x ∈ e, refBelow N x.2 = true :=
  (regionClosed_spec st N).mp hr (a, e) (lookupMem_mem st.mem a e h) ha

theorem keys_of_lookup (st : Store) (a : Nat) (e : Entries)
    (hk : storeKeysNodup st = true) (h : lookupA st a = some e) :
    (e.map Prod.fst).Nodup :=
  (storeKeysNodup_spec st).mp hk (a, e) (lookupMem_mem st.mem a e h)

theorem boundedStore_setA (st : Store) (a : Nat) (e : Entries)
    (hb : boundedStore st = true) (ha : a < st.next) :
    boundedStore (setA st a e) = true := by
  rw [boundedStore_spec] at hb ⊢
  intro q hq
  rcases setMem_subset st.mem a e q hq with rfl | h2
  · exact ha
  · exact hb q h2

theorem regionClosed_setA (st : Store) (N : Nat) (a : Nat) (e : Entries)
    (hr : regionClosed st N = true) (ha : N ≤ a) :
    regionClosed (setA st a e) N = true := by
  rw [regionClosed_spec] at hr ⊢
  intro q hq hlt
  rcases setMem_subset st.mem a e q hq with rfl | h2
  · exact absurd hlt (by omega)
  · exact hr q h2 hlt

theorem storeKeysNodup_setA (st : Store) (a : Nat) (e : Entries)
    (hk : storeKeysNodup st = true) (he : (e.map Prod.fst).Nodup) :
    storeKeysNodup (setA st a e) = true := by
  rw [storeKeysNodup_spec] at hk ⊢
  intro q hq
  rcases setMem_subset st.mem a e q hq with rfl | h2
  · exact he
  · exact hk q h2

theorem boundedStore_allocA (st : Store) (e : Entries)
    (hb : boundedStore st = true) : boundedStore (allocA st e) = true := by
  rw [boundedStore_spec] at hb ⊢
  intro q hq
  rcases List.mem_cons.mp hq with rfl | h2
  · simp [allocA]
  · have := hb q h2
    simp only [allocA]
    omega

theorem regionClosed_allocA (st : Store) (N : Nat) (e : Entries)
    (hr : regionClosed st N = true) (hN : N ≤ st.next) :
    regionClosed (allocA st e) N = true := by
  rw [regionClosed_spec] at hr ⊢
  intro q hq hlt
  rcases List.mem_cons.mp hq with rfl | h2
  · exact absurd hlt (by simp only [allocA]; omega)
  · exact hr q h2 hlt

theorem storeKeysNodup_allocA (st : Store) (e : Entries)
    (hk : storeKeysNodup st = true) (he : (e.map Prod.fst).Nodup) :
    storeKeysNodup (allocA st e) = true := by
  rw [storeKeysNodup_spec] at hk ⊢
  intro q hq
  rcases List.mem_cons.mp hq with rfl | h2
  · exact he
  · exact hk q h2

theorem dictGetH_none_keys : ∀ (es : Entries) (k : List Char),
    dictGetH es k = none → k ∉ es.map Prod.fst
  | [], _, _ => by simp
  | e :: rest, k, h => by
    simp only [dictGetH] at h
    by_cases he : e.1 = k
    · rw [if_pos he] at h
      exact absurd h (by simp)
    · rw [if_neg he] at h
      simp only [List.map_cons, List.mem_cons]
      intro hc
      rcases hc with hc | hc
      · exact he hc.symm
      · exact dictGetH_none_keys rest k h hc

theorem dictSetH_keys_present : ∀ (es : Entries) (k : List Char) (v v0 : HVal),
    dictGetH es k = some v0 → (dictSetH es k v).map Prod.fst = es.map Prod.fst
  | [], _, _, _, h => by simp [dictGetH] at h
  | e :: rest, k, v, v0, h => by
    simp only [dictGetH] at h
    simp only [dictSetH]
    by_cases he : e.1 = k
    · rw [if_pos he]
      simp only [List.map_cons]
      rw [he]
    · rw [if_neg he] at h
      rw [if_neg he]
      simp only [List.map_cons]
      rw [dictSetH_keys_present rest k v v0 h]

theorem dictSetH_keys_absent : ∀ (es : Entries) (k : List Char) (v : HVal),
    dictGetH es k = none → (dictSetH es k v).map Prod.fst = es.map Prod.fst ++ [k]
  | [], _, _, _ => by simp [dictSetH]
  | e :: rest, k, v, h => by
    simp only [dictGetH] at h
    by_cases he : e.1 = k
    · rw [if_pos he] at h
      exact absurd h (by simp)
    · rw [if_neg he] at h
      simp only [dictSetH, if_neg he, List.map_cons, List.cons_append]
      rw [dictSetH_keys_absent rest k v h]

theorem dictSetH_nodup (es : Entries) (k : List Char) (v : HVal)
    (h : (es.map Prod.fst).Nodup) : ((dictSetH es k v).map Prod.fst).Nodup := by
  cases hg : dictGetH es k with
  | some v0 => rw [dictSetH_keys_present es k v v0 hg]; exact h
  | none =>
    rw [dictSetH_keys_absent es k v hg]
    rw [List.nodup_append]
    exact ⟨h, List.nodup_singleton k, by
      intro x hx hy
      rcases List.mem_singleton.mp hy with rfl
      exact dictGetH_none_keys es x hg hx⟩

/-- The abstract tree of the freshly copied parent region: a dict node
with its address, a scalar entry, or a reference that leaves the region
(grafted group dicts). -/
inductive PShape : Type where
  | scalar : HVal → PShape
  | graft : Nat → PShape
  | node : Nat → List (List Char × PShape) → PShape

/-- The store value a shape stands for. -/
def shapeVal : PShape → HVal
  | .scalar v => v
  | .graft b => .hRef b
  | .node a _ => .hRef a

/-- The dict entries a list of child shapes stands for. -/
def entriesOf (children : List (List Char × PShape)) : Entries :=
  children.map (fun c => (c.1, shapeVal c.2))

mutual
def addrsOf : PShape → List Nat
  | .scalar _ => []
  | .graft _ => []
  | .node a children => a :: addrsOfL children
def addrsOfL : List (List Char × PShape) → List Nat
  | [] => []
  | c :: rest => addrsOf c.2 ++ addrsOfL rest
end

mutual
def graftFree : PShape → Prop
  | .scalar _ => True
  | .graft _ => False
  | .node _ children => graftFreeL children
def graftFreeL : List (List Char × PShape) → Prop
  | [] => True
  | c :: rest => graftFree c.2 ∧ graftFreeL rest
end

mutual
def Represents (st : Store) (N : Nat) : PShape → Prop
  | .scalar v => ∀ b, v ≠ .hRef b
  | .graft b => b < N
  | .node a children =>
      N ≤ a ∧ lookupA st a = some (entriesOf children) ∧ RepresentsL st N children
def RepresentsL (st : Store) (N : Nat) : List (List Char × PShape) → Prop
  | [] => True
  | c :: rest => Represents st N c.2 ∧ RepresentsL st N rest
end

/-- First shape stored under a key. -/
def shapeAt : List (List Char × PShape) → List Char → Option PShape
  | [], _ => none
  | c :: rest, k => if c.1 = k then some c.2 else shapeAt rest k

/-- Shape-level `d[k] = s`, mirroring `dictSetH`. -/
def setShapeAt : List (List Char × PShape) → List Char → PShape →
    List (List Char × PShape)
  | [], k, s => [(k, s)]
  | c :: rest, k, s => if c.1 = k then (k, s) :: rest else c :: setShapeAt rest k s

theorem dictGetH_entriesOf : ∀ (children : List (List Char × PShape)) (k : List Char),
    dictGetH (entriesOf children) k = (shapeAt children k).map shapeVal
  | [], _ => rfl
  | c :: rest, k => by
    simp only [entriesOf, List.map_cons, dictGetH, shapeAt]
    by_cases hc : c.1 = k
    · rw [if_pos hc, if_pos hc]
      rfl
    · rw [if_neg hc, if_neg hc]
      exact dictGetH_entriesOf rest k

theorem dictSetH_entriesOf : ∀ (children : List (List Char × PShape)) (k : List Char)
    (s : PShape), dictSetH (entriesOf children) k (shapeVal s) =
      entriesOf (setShapeAt children k s)
  | [], _, _ => rfl
  | c :: rest, k, s => by
    simp only [entriesOf, List.map_cons, dictSetH, setShapeAt]
    by_cases hc : c.1 = k
    · rw [if_pos hc, if_pos hc]
      simp [entriesOf]
    · rw [if_neg hc, if_neg hc]
      simp only [entriesOf, List.map_cons]
      rw [show List.map (fun c => (c.1, shapeVal c.2)) (setShapeAt rest k s) =
        entriesOf (setShapeAt rest k s) from rfl, ← dictSetH_entriesOf rest k s]
      rfl

theorem entriesOf_setShapeAt_self : ∀ (children : List (List Char × PShape))
    (k : List Char) (s0 s : PShape), shapeAt children k = some s0 →
    shapeVal s = shapeVal s0 → entriesOf (setShapeAt children k s) = entriesOf children
  | [], _, _, _, h, _ => by simp [shapeAt] at h
  | c :: rest, k, s0, s, h, hv => by
    simp only [shapeAt] at h
    simp only [setShapeAt]
    by_cases hc : c.1 = k
    · rw [if_pos hc] at h
      rw [Option.some.injEq] at h
      rw [if_pos hc]
      simp only [entriesOf, List.map_cons]
      rw [hv, h, hc]
    · rw [if_neg hc] at h
      rw [if_neg hc]
      simp only [entriesOf, List.map_cons]
      rw [show List.map (fun c => (c.1, shapeVal c.2)) (setShapeAt rest k s) =
        entriesOf (setShapeAt rest k s) from rfl,
        entriesOf_setShapeAt_self rest k s0 s h hv]
      rfl

theorem addrsOfL_append : ∀ (l1 l2 : List (List Char × PShape)),
    addrsOfL (l1 ++ l2) = addrsOfL l1 ++ addrsOfL l2
  | [], l2 => by simp [addrsOfL]
  | c :: rest, l2 => by
    simp only [List.cons_append, addrsOfL]
    rw [show rest.append l2 = rest ++ l2 from rfl, addrsOfL_append rest l2,
      List.append_assoc]

theorem addrsOf_shapeAt_sublist : ∀ (children : List (List Char × PShape))
    (k : List Char) (s : PShape), shapeAt children k = some s →
    List.Sublist (addrsOf s) (addrsOfL children)
  | [], _, _, h => by simp [shapeAt] at h
  | c :: rest, k, s, h => by
    simp only [shapeAt] at h
    simp only [addrsOfL]
    by_cases hc : c.1 = k
    · rw [if_pos hc] at h
      rw [Option.some.injEq] at h
      rw [h]
      exact List.sublist_append_left _ _
    · rw [if_neg hc] at h
      exact (addrsOf_shapeAt_sublist rest k s h).trans (List.sublist_append_right _ _)

theorem addrsOfL_setShapeAt_present : ∀ (children : List (List Char × PShape))
    (k : List Char) (s0 s : PShape), shapeAt children k = some s0 →
    List.Sublist (addrsOf s) (addrsOf s0) →
    List.Sublist (addrsOfL (setShapeAt children k s)) (addrsOfL children)
  | [], _, _, _, h, _ => by simp [shapeAt] at h
  | c :: rest, k, s0, s, h, hs => by
    simp only [shapeAt] at h
    simp only [setShapeAt]
    by_cases hc : c.1 = k
    · rw [if_pos hc] at h
      rw [Option.some.injEq] at h
      rw [if_pos hc]
      simp only [addrsOfL]
      rw [h]
      exact List.Sublist.append hs (List.Sublist.refl _)
    · rw [if_neg hc] at h
      rw [if_neg hc]
      simp only [addrsOfL]
      exact List.Sublist.append (List.Sublist.refl _)
        (addrsOfL_setShapeAt_present rest k s0 s h hs)

theorem addrsOfL_setShapeAt_absent : ∀ (children : List (List Char × PShape))
    (k : List Char) (s : PShape), shapeAt children k = none →
    addrsOfL (setShapeAt children k s) = addrsOfL children ++ addrsOf s
  | [], _, s => by intro _; simp [setShapeAt, addrsOfL]
  | c :: rest, k, s => by
    intro h
    simp only [shapeAt] at h
    by_cases hc : c.1 = k
    · rw [if_pos hc] at h
      exact absurd h (by simp)
    · rw [if_neg hc] at h
      simp only [setShapeAt, if_neg hc, addrsOfL]
      rw [addrsOfL_setShapeAt_absent rest k s h, List.append_assoc]

theorem shapeAt_setShapeAt_ne : ∀ (children : List (List Char × PShape))
    (k k2 : List Char) (s : PShape), k2 ≠ k →
    shapeAt (setShapeAt children k s) k2 = shapeAt children k2
  | [], k, k2, s, h => by
    simp only [setShapeAt, shapeAt]
    rw [if_neg (fun hh => h hh.symm)]
  | c :: rest, k, k2, s, h => by
    simp only [setShapeAt]
    by_cases hc : c.1 = k
    · rw [if_pos hc]
      simp only [shapeAt]
      rw [if_neg (fun hh : k = k2 => h hh.symm), if_neg (by rw [hc]; exact fun hh => h hh.symm)]
    · rw [if_neg hc]
      simp only [shapeAt]
      by_cases hck : c.1 = k2
      · rw [if_pos hck, if_pos hck]
      · rw [if_neg hck, if_neg hck]
        exact shapeAt_setShapeAt_ne rest k k2 s h

theorem RepresentsL_shapeAt (st : Store) (N : Nat) :
    ∀ (children : List (List Char × PShape)) (k : List Char) (s : PShape),
      RepresentsL st N children → shapeAt children k = some s → Represents st N s
  | [], k, s, _, h => by simp [shapeAt] at h
  | c :: rest, k, s, hr, h => by
    simp only [shapeAt] at h
    simp only [RepresentsL] at hr
    by_cases hc : c.1 = k
    · rw [if_pos hc] at h
      rw [Option.some.injEq] at h
      rw [← h]
      exact hr.1
    · rw [if_neg hc] at h
      exact RepresentsL_shapeAt st N rest k s hr.2 h

theorem RepresentsL_setShapeAt (st : Store) (N : Nat) :
    ∀ (children : List (List Char × PShape)) (k : List Char) (s : PShape),
      RepresentsL st N children → Represents st N s →
      RepresentsL st N (setShapeAt children k s)
  | [], k, s, _, hs => by
    simp only [setShapeAt, RepresentsL]
    exact ⟨hs, trivial⟩
  | c :: rest, k, s, hr, hs => by
    simp only [RepresentsL] at hr
    simp only [setShapeAt]
    by_cases hc : c.1 = k
    · rw [if_pos hc]
      exact ⟨hs, hr.2⟩
    · rw [if_neg hc]
      exact ⟨hr.1, RepresentsL_setShapeAt st N rest k s hr.2 hs⟩

theorem graftFreeL_shapeAt : ∀ (children : List (List Char × PShape))
    (k : List Char) (s : PShape), graftFreeL children → shapeAt children k = some s →
    graftFree s
  | [], k, s, _, h => by simp [shapeAt] at h
  | c :: rest, k, s, hn, h => by
    simp only [shapeAt] at h
    simp only [graftFreeL] at hn
    by_cases hc : c.1 = k
    · rw [if_pos hc] at h
      rw [Option.some.injEq] at h
      rw [← h]
      exact hn.1
    · rw [if_neg hc] at h
      exact graftFreeL_shapeAt rest k s hn.2 h

theorem graftFreeL_setShapeAt_ne :
    ∀ (children : List (List Char × PShape)) (k k2 : List Char) (s s2 : PShape),
      k2 ≠ k → graftFreeL children →
      shapeAt (setShapeAt children k s) k2 = some s2 → graftFree s2 := by
  intro children k k2 s s2 hne hn h
  rw [shapeAt_setShapeAt_ne children k k2 s hne] at h
  exact graftFreeL_shapeAt children k2 s2 hn h

mutual
theorem Represents_mono (st st2 : Store) (N : Nat) :
    ∀ t : PShape, (∀ x ∈ addrsOf t, lookupA st2 x = lookupA st x) →
      Represents st N t → Represents st2 N t
  | .scalar v, _, hr => hr
  | .graft b, _, hr => hr
  | .node a children, hf, hr => by
    simp only [Represents] at hr ⊢
    simp only [addrsOf] at hf
    refine ⟨hr.1, ?_, ?_⟩
    · rw [hf a (List.mem_cons_self _ _)]
      exact hr.2.1
    · exact RepresentsL_mono st st2 N children
        (fun x hx => hf x (List.mem_cons_of_mem _ hx)) hr.2.2

theorem RepresentsL_mono (st st2 : Store) (N : Nat) :
    ∀ children : List (List Char × PShape),
      (∀ x ∈ addrsOfL children, lookupA st2 x = lookupA st x) →
      RepresentsL st N children → RepresentsL st2 N children
  | [], _, hr => hr
  | c :: rest, hf, hr => by
    simp only [RepresentsL] at hr ⊢
    simp only [addrsOfL] at hf
    refine ⟨?_, ?_⟩
    · exact Represents_mono st st2 N c.2
        (fun x hx => hf x (List.mem_append.mpr (Or.inl hx))) hr.1
    · exact RepresentsL_mono st st2 N rest
        (fun x hx => hf x (List.mem_append.mpr (Or.inr hx))) hr.2
end

theorem lookupA_allocA_self (st : Store) (e : Entries) :
    lookupA (allocA st e) st.next = some e := by
  simp [lookupA, allocA, lookupMem]

/-- What one dict copy guarantees: fresh allocations only, all below the
new `next`, the old region untouched, and a represented, graft-free,
duplicate-free tree for the copy. -/
def DictCopySpec (N : Nat) (st st1 : Store) (c : Nat) : Prop :=
  st.next ≤ st1.next ∧ st.next ≤ c ∧ c < st1.next ∧
  (∀ b, b < st.next → lookupA st1 b = lookupA st b) ∧
  boundedStore st1 = true ∧ storeKeysNodup st1 = true ∧ regionClosed st1 N = true ∧
  ∃ children, Represents st1 N (.node c children) ∧ graftFreeL children ∧
    (addrsOf (.node c children)).Nodup ∧
    ∀ x ∈ addrsOf (.node c children), st.next ≤ x ∧ x < st1.next

/-- The entry-loop variant of `DictCopySpec`. -/
def EntCopySpec (N : Nat) (st : Store) (es : Entries) (st1 : Store)
    (es2 : Entries) : Prop :=
  st.next ≤ st1.next ∧
  (∀ b, b < st.next → lookupA st1 b = lookupA st b) ∧
  boundedStore st1 = true ∧ storeKeysNodup st1 = true ∧ regionClosed st1 N = true ∧
  ∃ children, es2 = entriesOf children ∧
    children.map Prod.fst = es.map Prod.fst ∧
    RepresentsL st1 N children ∧ graftFreeL children ∧ (addrsOfL children).Nodup ∧
    ∀ x ∈ addrsOfL children, st.next ≤ x ∧ x < st1.next

theorem EntCopySpec_scalar_cons (N : Nat) (st stB : Store) (k : List Char)
    (v : HVal) (rest rest2 : Entries) (hv : ∀ b, v ≠ .hRef b)
    (E : EntCopySpec N st rest stB rest2) :
    EntCopySpec N st ((k, v) :: rest) stB ((k, v) :: rest2) := by
  obtain ⟨e1, e2, e3, e4, e5, children, hc1, hc2, hc3, hc4, hc5, hc6⟩ := E
  refine ⟨e1, e2, e3, e4, e5, (k, .scalar v) :: children, ?_, ?_, ?_, ?_, ?_, ?_⟩
  · rw [hc1]
    rfl
  · simp only [List.map_cons]
    rw [hc2]
  · exact ⟨hv, hc3⟩
  · exact ⟨trivial, hc4⟩
  · simp only [addrsOfL, addrsOf, List.nil_append]
    exact hc5
  · simp only [addrsOfL, addrsOf, List.nil_append]
    exact hc6

theorem deepcopyEntriesWith_spec (N : Nat)
    (copyDict : Store → Nat → Option (Store × Nat))
    (hcd : ∀ st a st1 c, copyDict st a = some (st1, c) → boundedStore st = true →
      storeKeysNodup st = true → regionClosed st N = true → N ≤ st.next →
      DictCopySpec N st st1 c) :
    ∀ (st : Store) (es : Entries) (st1 : Store) (es2 : Entries),
      deepcopyEntriesWith copyDict st es = some (st1, es2) →
      boundedStore st = true → storeKeysNodup st = true →
      regionClosed st N = true → N ≤ st.next → EntCopySpec N st es st1 es2
  | st, [], st1, es2, h, hb, hk, hr, hN => by
    simp only [deepcopyEntriesWith, Option.some.injEq, Prod.mk.injEq] at h
    obtain ⟨h1, h2⟩ := h
    subst h1
    subst h2
    exact ⟨Nat.le_refl _, fun b _ => rfl, hb, hk, hr, [], rfl, rfl, trivial, trivial,
      List.nodup_nil, by simp [addrsOfL]⟩
  | st, (k, v) :: rest, st1, es2, h, hb, hk, hr, hN => by
    cases v with
    | hRef b =>
      simp only [deepcopyEntriesWith] at h
      cases hcb : copyDict st b with
      | none => rw [hcb] at h; exact absurd h (by simp)
      | some p =>
        obtain ⟨stA, b2⟩ := p
        rw [hcb] at h
        dsimp only at h
        cases hce : deepcopyEntriesWith copyDict stA rest with
        | none => rw [hce] at h; exact absurd h (by simp)
        | some q =>
          obtain ⟨stB, rest2⟩ := q
          rw [hce] at h
          dsimp only at h
          simp only [Option.some.injEq, Prod.mk.injEq] at h
          obtain ⟨h1, h2⟩ := h
          subst h1
          subst h2
          obtain ⟨d1, d2, d3, d4, d5, d6, d7, childrenD, hd1, hd2, hd3, hd4⟩ :=
            hcd st b stA b2 hcb hb hk hr hN
          obtain ⟨e1, e2, e3, e4, e5, childrenE, he1, he2, he3, he4, he5, he6⟩ :=
            deepcopyEntriesWith_spec N copyDict hcd stA rest stB rest2 hce d5 d6 d7
              (Nat.le_trans hN d1)
          refine ⟨Nat.le_trans d1 e1, ?_, e3, e4, e5,
            (k, .node b2 childrenD) :: childrenE, ?_, ?_, ?_, ?_, ?_, ?_⟩
          · intro x hx
            rw [e2 x (by omega), d4 x hx]
          · rw [he1]
            rfl
          · simp only [List.map_cons]
            rw [he2]
          · refine ⟨?_, he3⟩
            apply Represents_mono stA stB N (.node b2 childrenD) _ hd1
            intro x hx
            exact e2 x (hd4 x hx).2
          · exact ⟨hd2, he4⟩
          · simp only [addrsOfL]
            apply List.Nodup.append hd3 he5
            intro x hx1 hx2
            have := (hd4 x hx1).2
            have := (he6 x hx2).1
            omega
          · simp only [addrsOfL]
            intro x hx
            rcases List.mem_append.mp hx with hx | hx
            · have := hd4 x hx
              omega
            · have := he6 x hx
              omega
    | hBool b1 =>
      simp only [deepcopyEntriesWith] at h
      cases hce : deepcopyEntriesWith copyDict st rest with
      | none => rw [hce] at h; exact absurd h (by simp)
      | some q =>
        obtain ⟨stB, rest2⟩ := q
        rw [hce] at h
        dsimp only at h
        simp only [Option.some.injEq, Prod.mk.injEq] at h
        obtain ⟨h1, h2⟩ := h
        subst h1
        subst h2
        exact EntCopySpec_scalar_cons N st stB k (.hBool b1) rest rest2 (by simp)
          (deepcopyEntriesWith_spec N copyDict hcd st rest stB rest2 hce hb hk hr hN)
    | hInt i1 =>
      simp only [deepcopyEntriesWith] at h
      cases hce : deepcopyEntriesWith copyDict st rest with
      | none => rw [hce] at h; exact absurd h (by simp)
      | some q =>
        obtain ⟨stB, rest2⟩ := q
        rw [hce] at h
        dsimp only at h
        simp only [Option.some.injEq, Prod.mk.injEq] at h
        obtain ⟨h1, h2⟩ := h
        subst h1
        subst h2
        exact EntCopySpec_scalar_cons N st stB k (.hInt i1) rest rest2 (by simp)
          (deepcopyEntriesWith_spec N copyDict hcd st rest stB rest2 hce hb hk hr hN)
    | hStr s1 =>
      simp only [deepcopyEntriesWith] at h
      cases hce : deepcopyEntriesWith copyDict st rest with
      | none => rw [hce] at h; exact absurd h (by simp)
      | some q =>
        obtain ⟨stB, rest2⟩ := q
        rw [hce] at h
        dsimp only at h
        simp only [Option.some.injEq, Prod.mk.injEq] at h
        obtain ⟨h1, h2⟩ := h
        subst h1
        subst h2
        exact EntCopySpec_scalar_cons N st stB k (.hStr s1) rest rest2 (by simp)
          (deepcopyEntriesWith_spec N copyDict hcd st rest stB rest2 hce hb hk hr hN)

theorem deepcopyDict_spec : ∀ (N fuel : Nat) (st : Store) (a : Nat) (st1 : Store)
    (c : Nat), deepcopyDict fuel st a = some (st1, c) → boundedStore st = true →
    storeKeysNodup st = true → regionClosed st N = true → N ≤ st.next →
    DictCopySpec N st st1 c
  | _, 0, _, _, _, _, h, _, _, _, _ => by simp [deepcopyDict] at h
  | N, fuel + 1, st, a, st1, c, h, hb, hk, hr, hN => by
    simp only [deepcopyDict] at h
    cases hla : lookupA st a with
    | none => rw [hla] at h; exact absurd h (by simp)
    | some entries =>
      rw [hla] at h
      dsimp only at h
      cases hce : deepcopyEntriesWith (deepcopyDict fuel) st entries with
      | none => rw [hce] at h; exact absurd h (by simp)
      | some p =>
        obtain ⟨stA, entries2⟩ := p
        rw [hce] at h
        dsimp only at h
        simp only [Option.some.injEq, Prod.mk.injEq] at h
        obtain ⟨h1, h2⟩ := h
        subst h1
        subst h2
        obtain ⟨e1, e2, e3, e4, e5, children, hc1, hc2, hc3, hc4, hc5, hc6⟩ :=
          deepcopyEntriesWith_spec N (deepcopyDict fuel)
            (fun st a st1 c h hb hk hr hN =>
              deepcopyDict_spec N fuel st a st1 c h hb hk hr hN)
            st entries stA entries2 hce hb hk hr hN
        have hkeys2 : (entries2.map Prod.fst).Nodup := by
          rw [hc1, show (entriesOf children).map Prod.fst = children.map Prod.fst
            from by simp [entriesOf], hc2]
          exact keys_of_lookup st a entries hk hla
        refine ⟨by simp only [allocA]; omega, e1, by simp only [allocA]; omega,
          ?_, boundedStore_allocA stA entries2 e3,
          storeKeysNodup_allocA stA entries2 e4 hkeys2,
          regionClosed_allocA stA N entries2 e5 (Nat.le_trans hN e1),
          children, ?_, hc4, ?_, ?_⟩
        · intro b hblt
          rw [lookupA_allocA_ne stA entries2 b (by omega), e2 b hblt]
        · simp only [Represents]
          refine ⟨Nat.le_trans hN e1, ?_, ?_⟩
          · rw [lookupA_allocA_self, hc1]
          · apply RepresentsL_mono stA _ N children _ hc3
            intro x hx
            exact lookupA_allocA_ne stA entries2 x (by have := (hc6 x hx).2; omega)
        · simp only [addrsOf, List.nodup_cons]
          refine ⟨?_, hc5⟩
          intro hmem
          have := (hc6 _ hmem).2
          omega
        · simp only [addrsOf, allocA]
          intro x hx
          rcases List.mem_cons.mp hx with rfl | hx2
          · omega
          · have := hc6 x hx2
            omega

/-- What one `deep_update` call on a parent represented by `t`
guarantees: the allocation bound is unchanged, every address outside the
parent's tree is untouched, the store stays well formed, and the parent
is again represented by a tree with the same root value whose addresses
are a sublist of the old ones. -/
def DuSpec (N : Nat) (st : Store) (t : PShape) (st2 : Store) : Prop :=
  st2.next = st.next ∧
  (∀ b, b ∉ addrsOf t → lookupA st2 b = lookupA st b) ∧
  boundedStore st2 = true ∧ storeKeysNodup st2 = true ∧ regionClosed st2 N = true ∧
  ∃ t2, shapeVal t2 = shapeVal t ∧ Represents st2 N t2 ∧
    List.Sublist (addrsOf t2) (addrsOf t)

theorem duEntriesWith_scalar (du : HVal → Nat → Store → Option Store) (pv : HVal)
    (hv : ∀ b, pv ≠ .hRef b) :
    ∀ (gs : Entries) (st st2 : Store), duEntriesWith du pv st gs = some st2 → st2 = st
  | [], st, st2, h => by
    simp only [duEntriesWith, Option.some.injEq] at h
    exact h.symm
  | (k, w) :: rest, st, st2, h => by
    cases w <;> cases pv <;> simp only [duEntriesWith] at h <;>
      first
        | exact absurd rfl (hv _)
        | exact absurd h (by simp)

theorem RepresentsL_update (st stM : Store) (N : Nat) :
    ∀ (children : List (List Char × PShape)) (k : List Char) (s s2 : PShape),
      shapeAt children k = some s → RepresentsL st N children →
      Represents stM N s2 → (addrsOfL children).Nodup →
      (∀ x ∈ addrsOfL children, x ∉ addrsOf s → lookupA stM x = lookupA st x) →
      RepresentsL stM N (setShapeAt children k s2)
  | [], k, s, s2, hsh, _, _, _, _ => by simp [shapeAt] at hsh
  | c :: rest, k, s, s2, hsh, hrl, hs2, hnd, hf => by
    simp only [shapeAt] at hsh
    simp only [RepresentsL] at hrl
    simp only [addrsOfL] at hnd hf
    have hdisj := (List.nodup_append.mp hnd).2.2
    simp only [setShapeAt]
    by_cases hc : c.1 = k
    · rw [if_pos hc] at hsh ⊢
      rw [Option.some.injEq] at hsh
      refine ⟨hs2, ?_⟩
      apply RepresentsL_mono st stM N rest _ hrl.2
      intro x hx
      apply hf x (List.mem_append.mpr (Or.inr hx))
      rw [← hsh]
      exact fun hxs => hdisj hxs hx
    · rw [if_neg hc] at hsh ⊢
      have hssub := addrsOf_shapeAt_sublist rest k s hsh
      refine ⟨?_, ?_⟩
      · apply Represents_mono st stM N c.2 _ hrl.1
        intro x hx
        apply hf x (List.mem_append.mpr (Or.inl hx))
        exact fun hxs => hdisj hx (hssub.subset hxs)
      · apply RepresentsL_update st stM N rest k s s2 hsh hrl.2 hs2
          (List.Nodup.sublist (List.sublist_append_right _ _) hnd)
        intro x hx hxs
        exact hf x (List.mem_append.mpr (Or.inr hx)) hxs

/-- The assignment step of the update loop: `parentstyle[k] = w` where
`w` carries no fresh addresses (a scalar, or a grafted group
reference). -/
theorem duEnt_set_step (N : Nat) (du : HVal → Nat → Store → Option Store)
    (st : Store) (pa : Nat) (children : List (List Char × PShape))
    (k : List Char) (w : HVal) (s2 : PShape) (rest : Entries) (st2 : Store)
    (hs2v : shapeVal s2 = w) (hs2a : addrsOf s2 = [])
    (hs2r : Represents (setA st pa (dictSetH (entriesOf children) k w)) N s2)
    (hpaN : N ≤ pa)
    (hlk : lookupA st pa = some (entriesOf children))
    (hrl : RepresentsL st N children)
    (hpan : pa ∉ addrsOfL children)
    (hndc : (addrsOfL children).Nodup)
    (hgkr : (rest.map Prod.fst).Nodup) (hknr : k ∉ rest.map Prod.fst)
    (hgrr : ∀ x ∈ rest, refBelow N x.2 = true)
    (hclr : ∀ x ∈ rest, ∀ s, shapeAt children x.1 = some s → graftFree s)
    (hb : boundedStore st = true) (hk : storeKeysNodup st = true)
    (hr : regionClosed st N = true) (hN : N ≤ st.next)
    (IH : ∀ (stM : Store) (children2 : List (List Char × PShape)),
        duEntriesWith du (.hRef pa) stM rest = some st2 →
        Represents stM N (.node pa children2) →
        (addrsOf (.node pa children2)).Nodup →
        (rest.map Prod.fst).Nodup →
        (∀ x ∈ rest, refBelow N x.2 = true) →
        (∀ x ∈ rest, ∀ s, shapeAt children2 x.1 = some s → graftFree s) →
        boundedStore stM = true → storeKeysNodup stM = true →
        regionClosed stM N = true → N ≤ stM.next →
        DuSpec N stM (.node pa children2) st2)
    (h : duEntriesWith du (.hRef pa)
        (setA st pa (dictSetH (entriesOf children) k w)) rest = some st2) :
    DuSpec N st (.node pa children) st2 := by
  have hpa_lt : pa < st.next := bounded_of_lookup st pa _ hb hlk
  have hfr : ∀ x, x ≠ pa →
      lookupA (setA st pa (dictSetH (entriesOf children) k w)) x = lookupA st x :=
    fun x hx => lookupA_setA_ne st pa _ x hx
  have hentEq : entriesOf (setShapeAt children k s2) =
      dictSetH (entriesOf children) k w := by
    rw [← hs2v]
    exact (dictSetH_entriesOf children k s2).symm
  have haddrSub : List.Sublist (addrsOfL (setShapeAt children k s2))
      (addrsOfL children) := by
    cases hsh : shapeAt children k with
    | some s =>
      apply addrsOfL_setShapeAt_present children k s s2 hsh
      rw [hs2a]
      exact List.nil_sublist _
    | none =>
      rw [addrsOfL_setShapeAt_absent children k s2 hsh, hs2a, List.append_nil]
  have hrlM : RepresentsL (setA st pa (dictSetH (entriesOf children) k w)) N
      (setShapeAt children k s2) := by
    cases hsh : shapeAt children k with
    | some s =>
      apply RepresentsL_update st _ N children k s s2 hsh hrl hs2r hndc
      intro x hx _
      exact hfr x (fun hh => hpan (hh ▸ hx))
    | none =>
      apply RepresentsL_setShapeAt _ N children k s2 _ hs2r
      apply RepresentsL_mono st _ N children _ hrl
      intro x hx
      exact hfr x (fun hh => hpan (hh ▸ hx))
  have hrepM : Represents (setA st pa (dictSetH (entriesOf children) k w)) N
      (.node pa (setShapeAt children k s2)) := by
    simp only [Represents]
    exact ⟨hpaN, by rw [lookupA_setA_self, hentEq], hrlM⟩
  have hndM : (addrsOf (.node pa (setShapeAt children k s2))).Nodup := by
    simp only [addrsOf, List.nodup_cons]
    exact ⟨fun hx => hpan (haddrSub.subset hx), List.Nodup.sublist haddrSub hndc⟩
  have hkeysNew : ((dictSetH (entriesOf children) k w).map Prod.fst).Nodup :=
    dictSetH_nodup _ k w (keys_of_lookup st pa _ hk hlk)
  obtain ⟨f1, f2, f3, f4, f5, t3, ft1, ft2, ft3⟩ :=
    IH (setA st pa (dictSetH (entriesOf children) k w)) (setShapeAt children k s2) h
      hrepM hndM hgkr hgrr
      (by
        intro x hx s hs
        rw [shapeAt_setShapeAt_ne children k x.1 s2
          (fun hh => hknr (hh ▸ List.mem_map_of_mem Prod.fst hx))] at hs
        exact hclr x hx s hs)
      (boundedStore_setA st pa _ hb hpa_lt)
      (storeKeysNodup_setA st pa _ hk hkeysNew)
      (regionClosed_setA st N pa _ hr hpaN)
      hN
  refine ⟨f1, ?_, f3, f4, f5, t3, ft1, ft2, ?_⟩
  · intro x hx
    simp only [addrsOf, List.mem_cons] at hx
    rw [f2 x (by
      simp only [addrsOf, List.mem_cons]
      intro hc
      rcases hc with rfl | hc
      · exact hx (Or.inl rfl)
      · exact hx (Or.inr (haddrSub.subset hc)))]
    exact hfr x (fun hh => hx (Or.inl hh))
  · refine ft3.trans ?_
    simp only [addrsOf]
    exact List.Sublist.cons₂ pa haddrSub

theorem duEntriesWith_spec (N : Nat) (du : HVal → Nat → Store → Option Store)
    (hdu : ∀ (t : PShape) (ga : Nat) (stx st1 : Store),
      du (shapeVal t) ga stx = some st1 → Represents stx N t → graftFree t →
      (addrsOf t).Nodup → boundedStore stx = true → storeKeysNodup stx = true →
      regionClosed stx N = true → ga < N → N ≤ stx.next → DuSpec N stx t st1) :
    ∀ (gentries : Entries) (st : Store) (pa : Nat)
      (children : List (List Char × PShape)) (st2 : Store),
      duEntriesWith du (.hRef pa) st gentries = some st2 →
      Represents st N (.node pa children) →
      (addrsOf (.node pa children)).Nodup →
      (gentries.map Prod.fst).Nodup →
      (∀ x ∈ gentries, refBelow N x.2 = true) →
      (∀ x ∈ gentries, ∀ s, shapeAt children x.1 = some s → graftFree s) →
      boundedStore st = true → storeKeysNodup st = true →
      regionClosed st N = true → N ≤ st.next →
      DuSpec N st (.node pa children) st2
  | [], st, pa, children, st2, h, hrep, _, _, _, _, hb, hk, hr, _ => by
    simp only [duEntriesWith, Option.some.injEq] at h
    subst h
    exact ⟨rfl, fun b _ => rfl, hb, hk, hr, .node pa children, rfl, hrep,
      List.Sublist.refl _⟩
  | (k, v) :: rest, st, pa, children, st2, h, hrep, hnd, hgk, hgr, hcl, hb, hk, hr, hN => by
    have hrepn := hrep
    simp only [Represents] at hrep
    obtain ⟨hpaN, hlk, hrl⟩ := hrep
    simp only [addrsOf, List.nodup_cons] at hnd
    obtain ⟨hpan, hndc⟩ := hnd
    simp only [List.map_cons, List.nodup_cons] at hgk
    obtain ⟨hknr, hgkr⟩ := hgk
    have hgrr : ∀ x ∈ rest, refBelow N x.2 = true :=
      fun x hx => hgr x (List.mem_cons_of_mem _ hx)
    have hclr : ∀ x ∈ rest, ∀ s, shapeAt children x.1 = some s → graftFree s :=
      fun x hx => hcl x (List.mem_cons_of_mem _ hx)
    have IH := fun (stM : Store) (children2 : List (List Char × PShape)) h2 a1 a2 a3 a4 a5 a6 a7 a8 a9 =>
      duEntriesWith_spec N du hdu rest stM pa children2 st2 h2 a1 a2 a3 a4 a5 a6 a7 a8 a9
    cases v with
    | hRef b =>
      have hbN : b < N := by
        have := hgr (k, .hRef b) (List.mem_cons_self _ _)
        simp only [refBelow, decide_eq_true_eq] at this
        exact this
      simp only [duEntriesWith] at h
      rw [hlk] at h
      dsimp only at h
      rw [dictGetH_entriesOf children k] at h
      cases hsh : shapeAt children k with
      | some s =>
        rw [hsh] at h
        dsimp only [Option.map] at h
        cases hdus : du (shapeVal s) b st with
        | none => rw [hdus] at h; exact absurd h (by simp)
        | some stM =>
          rw [hdus] at h
          dsimp only at h
          have hsub : List.Sublist (addrsOf s) (addrsOfL children) :=
            addrsOf_shapeAt_sublist children k s hsh
          obtain ⟨m1, m2, m3, m4, m5, t2, mt1, mt2, mt3⟩ :=
            hdu s b st stM hdus (RepresentsL_shapeAt st N children k s hrl hsh)
              (hcl (k, .hRef b) (List.mem_cons_self _ _) s hsh)
              (List.Nodup.sublist hsub hndc) hb hk hr hbN hN
          have hpa_ns : pa ∉ addrsOf s := fun hx => hpan (hsub.subset hx)
          have hentEq : entriesOf (setShapeAt children k t2) = entriesOf children :=
            entriesOf_setShapeAt_self children k s t2 hsh mt1
          have hsubset : List.Sublist (addrsOfL (setShapeAt children k t2))
              (addrsOfL children) :=
            addrsOfL_setShapeAt_present children k s t2 hsh mt3
          obtain ⟨f1, f2, f3, f4, f5, t3, ft1, ft2, ft3⟩ :=
            IH stM (setShapeAt children k t2) h
              (by
                simp only [Represents]
                refine ⟨hpaN, ?_, ?_⟩
                · rw [m2 pa hpa_ns, hlk, hentEq]
                · exact RepresentsL_update st stM N children k s t2 hsh hrl mt2 hndc
                    (fun x _ hxs => m2 x hxs))
              (by
                simp only [addrsOf, List.nodup_cons]
                exact ⟨fun hx => hpan (hsubset.subset hx),
                  List.Nodup.sublist hsubset hndc⟩)
              hgkr hgrr
              (by
                intro x hx s2 hs2
                rw [shapeAt_setShapeAt_ne children k x.1 t2
                  (fun hh => hknr (hh ▸ List.mem_map_of_mem Prod.fst hx))] at hs2
                exact hclr x hx s2 hs2)
              m3 m4 m5 (by rw [m1]; exact hN)
          refine ⟨by rw [f1, m1], ?_, f3, f4, f5, t3, by rw [ft1]; rfl, ft2, ?_⟩
          · intro x hx
            simp only [addrsOf, List.mem_cons] at hx
            rw [f2 x (by
              simp only [addrsOf, List.mem_cons]
              intro hc
              rcases hc with rfl | hc
              · exact hx (Or.inl rfl)
              · exact hx (Or.inr (hsubset.subset hc)))]
            apply m2
            intro hxs
            exact hx (Or.inr (hsub.subset hxs))
          · refine ft3.trans ?_
            simp only [addrsOf]
            exact List.Sublist.cons₂ pa hsubset
      | none =>
        rw [hsh] at h
        dsimp only [Option.map] at h
        exact duEnt_set_step N du st pa children k (.hRef b) (.graft b) rest st2
          rfl rfl hbN hpaN hlk hrl hpan hndc hgkr hknr hgrr hclr hb hk hr hN IH h
    | hBool b1 =>
      simp only [duEntriesWith] at h
      rw [hlk] at h
      dsimp only at h
      exact duEnt_set_step N du st pa children k (.hBool b1) (.scalar (.hBool b1))
        rest st2 rfl rfl (by simp [Represents]) hpaN hlk hrl hpan hndc hgkr hknr
        hgrr hclr hb hk hr hN IH h
    | hInt i1 =>
      simp only [duEntriesWith] at h
      rw [hlk] at h
      dsimp only at h
      exact duEnt_set_step N du st pa children k (.hInt i1) (.scalar (.hInt i1))
        rest st2 rfl rfl (by simp [Represents]) hpaN hlk hrl hpan hndc hgkr hknr
        hgrr hclr hb hk hr hN IH h
    | hStr s1 =>
      simp only [duEntriesWith] at h
      rw [hlk] at h
      dsimp only at h
      exact duEnt_set_step N du st pa children k (.hStr s1) (.scalar (.hStr s1))
        rest st2 rfl rfl (by simp [Represents]) hpaN hlk hrl hpan hndc hgkr hknr
        hgrr hclr hb hk hr hN IH h

theorem deep_update_spec : ∀ (fuel N : Nat) (st : Store) (t : PShape) (ga : Nat)
    (st2 : Store), deep_update fuel st (shapeVal t) ga = some st2 →
    Represents st N t → graftFree t → (addrsOf t).Nodup →
    boundedStore st = true → storeKeysNodup st = true → regionClosed st N = true →
    ga < N → N ≤ st.next → DuSpec N st t st2
  | 0, _, _, _, _, _, h, _, _, _, _, _, _, _, _ => by simp [deep_update] at h
  | fuel + 1, N, st, t, ga, st2, h, hrep, hne, hnd, hb, hk, hr, hga, hN => by
    simp only [deep_update] at h
    cases hlg : lookupA st ga with
    | none => rw [hlg] at h; exact absurd h (by simp)
    | some gentries =>
      rw [hlg] at h
      dsimp only at h
      cases t with
      | graft e => exact absurd hne (by simp [graftFree])
      | scalar v =>
        have hst : st2 = st :=
          duEntriesWith_scalar _ (shapeVal (.scalar v)) hrep gentries st st2 h
        subst hst
        exact ⟨rfl, fun b _ => rfl, hb, hk, hr, .scalar v, rfl, hrep,
          List.Sublist.refl _⟩
      | node pa children =>
        have hgkeys : (gentries.map Prod.fst).Nodup :=
          keys_of_lookup st ga gentries hk hlg
        have hgrefs : ∀ x ∈ gentries, refBelow N x.2 = true :=
          region_of_lookup st N ga gentries hr hga hlg
        have hcl : ∀ x ∈ gentries, ∀ s, shapeAt children x.1 = some s → graftFree s := by
          intro x _ s hs
          exact graftFreeL_shapeAt children x.1 s (by simpa [graftFree] using hne) hs
        exact duEntriesWith_spec N
          (fun pv b stx => deep_update fuel stx pv b)
          (fun t1 ga1 stx st1 h1 a1 a2 a3 a4 a5 a6 a7 a8 =>
            deep_update_spec fuel N stx t1 ga1 st1 h1 a1 a2 a3 a4 a5 a6 a7 a8)
          gentries st pa children st2 h hrep hnd hgkeys hgrefs hcl hb hk hr hN

/-- C8.  `copy_with_optgroup` deep-copies the parent style and runs the
in-place `deep_update` only on the fresh copy, so every pre-existing
object — in particular the parent style `S`, the option group `G` and
all their nested dicts, which all live below the old allocation bound —
is left unchanged, and the returned style is a fresh object.  The store
hypotheses say the store is a valid Python heap (addresses in bounds,
dict keys unique) whose existing dicts only reference existing dicts. -/
theorem copy_with_optgroup_frame (fuel : Nat) (st : Store) (sa ga : Nat)
    (st2 : Store) (c : Nat)
    (h : copy_with_optgroup fuel st sa ga = some (st2, c))
    (hb : boundedStore st = true) (hr : regionClosed st st.next = true)
    (hk : storeKeysNodup st = true) (hga : ga < st.next) :
    (∀ a, a < st.next → lookupA st2 a = lookupA st a) ∧ st.next ≤ c := by
  simp only [copy_with_optgroup] at h
  cases hdc : deepcopyDict fuel st sa with
  | none => rw [hdc] at h; exact absurd h (by simp)
  | some p =>
    obtain ⟨st1, c1⟩ := p
    rw [hdc] at h
    dsimp only at h
    cases hdu : deep_update fuel st1 (.hRef c1) ga with
    | none => rw [hdu] at h; exact absurd h (by simp)
    | some stU =>
      rw [hdu] at h
      dsimp only at h
      simp only [Option.some.injEq, Prod.mk.injEq] at h
      obtain ⟨h1, h2⟩ := h
      subst h1
      subst h2
      obtain ⟨d1, d2, d3, d4, d5, d6, d7, children, hcR, hcE, hcN, hcB⟩ :=
        deepcopyDict_spec st.next fuel st sa st1 c1 hdc hb hk hr (Nat.le_refl _)
      obtain ⟨u1, u2, u3, u4, u5, t2, ut1, ut2, ut3⟩ :=
        deep_update_spec fuel st.next st1 (.node c1 children) ga stU hdu hcR
          (by simpa [graftFree] using hcE) hcN d5 d6 d7 hga d1
      refine ⟨?_, d2⟩
      intro a ha
      rw [u2 a (fun hx => by have := (hcB a hx).1; omega), d4 a ha]

/-- A concrete heap for the C8 witness: the parent style
`S = {A: 1, B: {C: 2}}` at address 0 (its nested dict at 1) and the
option group `G = {B: {C: 9, E: {F: 7}}, D: 5}` at address 2 (its nested
dicts at 3 and 4). -/
def stW : Store :=
  ⟨[(0, [("A".data, .hInt 1), ("B".data, .hRef 1)]),
    (1, [("C".data, .hInt 2)]),
    (2, [("B".data, .hRef 3), ("D".data, .hInt 5)]),
    (3, [("C".data, .hInt 9), ("E".data, .hRef 4)]),
    (4, [("F".data, .hInt 7)])], 5⟩

/-- The heap after `copy_with_optgroup(S, G)` on `stW`: the copy of the
nested dict lands at 5 and is updated in place (`C` overwritten, `E`
grafted as a reference to the group's dict 4), the copied root at 6;
addresses 0-4 are untouched. -/
def stW2 : Store :=
  ⟨[(6, [("A".data, .hInt 1), ("B".data, .hRef 5), ("D".data, .hInt 5)]),
    (5, [("C".data, .hInt 9), ("E".data, .hRef 4)]),
    (0, [("A".data, .hInt 1), ("B".data, .hRef 1)]),
    (1, [("C".data, .hInt 2)]),
    (2, [("B".data, .hRef 3), ("D".data, .hInt 5)]),
    (3, [("C".data, .hInt 9), ("E".data, .hRef 4)]),
    (4, [("F".data, .hInt 7)])], 7⟩

/-- C8 witness: on the concrete heap the merge succeeds, the parent's
nested dict at address 1 is untouched, and the result is a fresh
address. -/
theorem copy_with_optgroup_frame_witness :
    lookupA stW2 1 = lookupA stW 1 ∧ stW.next ≤ 6 :=
  ⟨(copy_with_optgroup_frame 10 stW 0 2 stW2 6 (by decide) (by decide) (by decide)
      (by decide) (by decide)).1 1 (by decide),
    (copy_with_optgroup_frame 10 stW 0 2 stW2 6 (by decide) (by decide) (by decide)
      (by decide) (by decide)).2⟩

end Whatstyle
